import Mathlib

/-!
Ringot `utility.go`: a shallow embedding.

The rendering-support and attachment-handling helpers of the Ringot terminal
client (`src/utility.go`) are translated function by function.  Byte strings are
`List UInt8`, Go `int` values that only count are `Nat`, a `rune` (`int32` in
Go) is an `Int`, and terminal attributes are `Nat`.
-/

namespace Ringot

/-! ## Runes, attributes and drawn cells -/

/-- A `termbox.Attribute` (a colour). -/
abbrev Attribute := Nat

/-- The replacement rune `utf8.RuneError` (U+FFFD). -/
def RuneError : Int := 0xFFFD

/-- One call `termbox.SetCell(x, y, ch, fg, bg)`. -/
structure Cell where
  x : Int
  y : Int
  ch : Int
  fg : Attribute
  bg : Attribute
deriving DecidableEq, Repr

/-- The package-level values `drawTextWithAutoNotice` reads but `utility.go`
does not declare: the two highlight colours and the display-width function
`runewidth.RuneWidth` of the go-runewidth library. -/
structure Term where
  ColorBlue : Attribute
  ColorLowlight : Attribute
  RuneWidth : Int → Nat

/-! ## `unicode/utf8` decoding (Go standard library) -/

/-- The table `first` of `unicode/utf8`: information about the first byte of a
UTF-8 sequence (`0xF0` ASCII, `0xF1` invalid, otherwise size in the low three
bits and the accept range index in the high four). -/
def first (b : Nat) : Nat :=
  if b < 0x80 then 0xF0
  else if b < 0xC2 then 0xF1
  else if b < 0xE0 then 0x02
  else if b = 0xE0 then 0x13
  else if b < 0xED then 0x03
  else if b = 0xED then 0x23
  else if b < 0xF0 then 0x03
  else if b = 0xF0 then 0x34
  else if b < 0xF4 then 0x04
  else if b = 0xF4 then 0x44
  else 0xF1

/-- The table `acceptRanges` of `unicode/utf8`: allowed range `(lo, hi)` of the
second byte. -/
def acceptRanges (i : Nat) : Nat × Nat :=
  match i with
  | 0 => (0x80, 0xBF)
  | 1 => (0xA0, 0xBF)
  | 2 => (0x80, 0x9F)
  | 3 => (0x90, 0xBF)
  | 4 => (0x80, 0x8F)
  | _ => (0, 0)

/-- The value of a two-byte sequence: `rune(p0&mask2)<<6 | rune(b1&maskx)`. -/
def rune2 (p0 b1 : Nat) : Int :=
  (((p0 &&& 0x1F) <<< 6 ||| (b1 &&& 0x3F) : Nat) : Int)

/-- The value of a three-byte sequence:
`rune(p0&mask3)<<12 | rune(b1&maskx)<<6 | rune(b2&maskx)`. -/
def rune3 (p0 b1 b2 : Nat) : Int :=
  (((p0 &&& 0x0F) <<< 12 ||| (b1 &&& 0x3F) <<< 6 ||| (b2 &&& 0x3F) : Nat) : Int)

/-- The value of a four-byte sequence:
`rune(p0&mask4)<<18 | rune(b1&maskx)<<12 | rune(b2&maskx)<<6 | rune(b3&maskx)`. -/
def rune4 (p0 b1 b2 b3 : Nat) : Int :=
  (((p0 &&& 0x07) <<< 18 ||| (b1 &&& 0x3F) <<< 12 ||| (b2 &&& 0x3F) <<< 6
      ||| (b3 &&& 0x3F) : Nat) : Int)

/-- The function `utf8.DecodeRune`: the first rune of `p` and its width in bytes;
`(RuneError, 0)` on empty input and `(RuneError, 1)` on an invalid encoding. -/
def decodeRune (p : List UInt8) : Int × Nat :=
  let n := p.length
  if n < 1 then (RuneError, 0) else
  let p0 := (p.getD 0 0).toNat
  let x := first p0
  if x ≥ 0xF0 then
    (if x = 0xF0 then (p0 : Int) else RuneError, 1)
  else
    let sz := x % 8
    let accept := acceptRanges (x / 16)
    if n < sz then (RuneError, 1) else
    let b1 := (p.getD 1 0).toNat
    if b1 < accept.1 ∨ accept.2 < b1 then (RuneError, 1) else
    if sz ≤ 2 then (rune2 p0 b1, 2) else
    let b2 := (p.getD 2 0).toNat
    if b2 < 0x80 ∨ 0xBF < b2 then (RuneError, 1) else
    if sz ≤ 3 then (rune3 p0 b1 b2, 3) else
    let b3 := (p.getD 3 0).toNat
    if b3 < 0x80 ∨ 0xBF < b3 then (RuneError, 1) else
    (rune4 p0 b1 b2 b3, 4)

/-- The runes a Go `for _, c := range str` loop yields: `decodeRune` applied
until the bytes are used up (`fuel` bounds the number of runes). -/
def runesFuel : Nat → List UInt8 → List Int
  | 0, _ => []
  | fuel + 1, t =>
    if t.length = 0 then []
    else (decodeRune t).1 :: runesFuel fuel (t.drop (decodeRune t).2)

/-- The rune sequence of a byte string. -/
def runes (t : List UInt8) : List Int := runesFuel t.length t

/-- The bytes of an ASCII literal (one byte per character). -/
def ascii (s : String) : List UInt8 := s.toList.map (fun c => c.toNat.toUInt8)

/-! ## Text drawing -/

/-- The function `isScreenNameUsable`. -/
def isScreenNameUsable (r : Int) : Bool :=
  if r ≥ 0x61 ∧ r ≤ 0x7A then true
  else if r ≥ 0x41 ∧ r ≤ 0x5A then true
  else if r ≥ 0x30 ∧ r ≤ 0x39 then true
  else if r = 0x5F then true
  else false

/-- The loop of `drawText` with counter `i`. -/
def drawTextLoop (K : Term) (x y : Int) (fg bg : Attribute) :
    Nat → List UInt8 → Nat → List Cell
  | 0, _, _ => []
  | fuel + 1, t, i =>
    if t.length = 0 then []
    else
      let c := (decodeRune t).1
      ⟨x + i, y, c, fg, bg⟩ ::
        drawTextLoop K x y fg bg fuel (t.drop (decodeRune t).2) (i + K.RuneWidth c)

/-- The function `drawText`: the `SetCell` calls it makes, in order. -/
def drawText (K : Term) (str : List UInt8) (x y : Int) (fg bg : Attribute) : List Cell :=
  drawTextLoop K x y fg bg str.length str 0

/-- The local variables of `drawTextWithAutoNotice` that live across iterations. -/
structure Scan where
  pos : Nat
  foreColor : Attribute
  backColor : Attribute
  fgChanging : Bool
  bgChanging : Bool
deriving DecidableEq, Repr

/-- The colour update of one iteration of `drawTextWithAutoNotice` (the `if`
statement before `SetCell`), on the remaining bytes `t` (non-empty). -/
def scanStep (K : Term) (fg bg : Attribute) (t : List UInt8) (st : Scan) : Scan :=
  let c := (decodeRune t).1
  let s := (decodeRune t).2
  if !(st.bgChanging || st.fgChanging) && decide (t.length > s) then
    if c = 0x40 then
      let tc := (decodeRune (t.drop s)).1
      if isScreenNameUsable tc then
        { st with backColor := K.ColorLowlight, bgChanging := true }
      else st
    else
      let fs : Bool × Nat :=
        if c = 0x20 then
          (decide ((decodeRune (t.drop s)).1 = 0x23), (decodeRune (t.drop s)).2)
        else if c = 0x23 ∧ st.pos = 0 then (true, 0)
        else (false, 0)
      if fs.1 then
        let tc := (decodeRune (t.drop (s + fs.2))).1
        if tc ≠ 0x20 then
          { st with foreColor := K.ColorBlue, fgChanging := true }
        else st
      else st
  else
    if st.bgChanging && !isScreenNameUsable c then
      { st with backColor := bg, bgChanging := false }
    else if st.fgChanging && decide (c = 0x20) then
      let tc := (decodeRune (t.drop s)).1
      if tc ≠ 0x23 then
        { st with foreColor := fg, fgChanging := false }
      else st
    else st

/-- The loop of `drawTextWithAutoNotice`. -/
def drawLoop (K : Term) (x y : Int) (fg bg : Attribute) :
    Nat → List UInt8 → Scan → List Cell
  | 0, _, _ => []
  | fuel + 1, t, st =>
    if t.length = 0 then []
    else
      let c := (decodeRune t).1
      let s := (decodeRune t).2
      let st1 := scanStep K fg bg t st
      ⟨x + st1.pos, y, c, st1.foreColor, st1.backColor⟩ ::
        drawLoop K x y fg bg fuel (t.drop s) { st1 with pos := st1.pos + K.RuneWidth c }

/-- The function `drawTextWithAutoNotice`: the `SetCell` calls it makes, in order. -/
def drawTextWithAutoNotice (K : Term) (str : List UInt8) (x y : Int)
    (fg bg : Attribute) : List Cell :=
  drawLoop K x y fg bg str.length str ⟨0, fg, bg, false, false⟩

/-- The colour update `scanStep`, read off the current rune `c` and the runes
`rest` that follow it instead of the undecoded bytes (used in the proofs). -/
def scanStepR (K : Term) (fg bg : Attribute) (c : Int) (rest : List Int)
    (st : Scan) : Scan :=
  if !(st.bgChanging || st.fgChanging) && !rest.isEmpty then
    if c = 0x40 then
      if isScreenNameUsable (rest.headD RuneError) then
        { st with backColor := K.ColorLowlight, bgChanging := true }
      else st
    else
      let fs : Bool × List Int :=
        if c = 0x20 then (decide (rest.headD RuneError = 0x23), rest.tail)
        else if c = 0x23 ∧ st.pos = 0 then (true, rest)
        else (false, rest)
      if fs.1 then
        if fs.2.headD RuneError ≠ 0x20 then
          { st with foreColor := K.ColorBlue, fgChanging := true }
        else st
      else st
  else
    if st.bgChanging && !isScreenNameUsable c then
      { st with backColor := bg, bgChanging := false }
    else if st.fgChanging && decide (c = 0x20) then
      if rest.headD RuneError ≠ 0x23 then
        { st with foreColor := fg, fgChanging := false }
      else st
    else st

/-- The loop `drawLoop` over the decoded runes (used in the proofs). -/
def drawRunes (K : Term) (x y : Int) (fg bg : Attribute) : List Int → Scan → List Cell
  | [], _ => []
  | c :: rest, st =>
    let st1 := scanStepR K fg bg c rest st
    ⟨x + st1.pos, y, c, st1.foreColor, st1.backColor⟩ ::
      drawRunes K x y fg bg rest { st1 with pos := st1.pos + K.RuneWidth c }

/-- The colours of a drawn cell, without its position. -/
def Cell.paint (c : Cell) : Int × Attribute × Attribute := (c.ch, c.fg, c.bg)

/-- A terminal for examples: blue is 5, the lowlight colour is 9, and every rune
is one column wide. -/
def exampleTerm : Term := ⟨5, 9, fun _ => 1⟩

/-- Every space of the list is immediately followed by `#`. -/
def SpaceThenHash : List Int → Prop
  | [] => True
  | c :: rest => (c = 0x20 → rest.head? = some 0x23) ∧ SpaceThenHash rest

/-- The text `#w1 #w2 ... #wk` of the words `ws`. -/
def hashtagChain : List (List UInt8) → List UInt8
  | [] => []
  | [w] => 0x23 :: w
  | w :: ws => 0x23 :: w ++ 0x20 :: hashtagChain ws

/-! ## Media download (`downloadMedia`, `openMedia`) -/

/-- The final call of `changeBufferState` in `openMedia`: its argument, from the
value of `receiveErrors` and `len(urls)`. -/
def finalStatus (receiveErrors : Nat) (n : Nat) : String :=
  if receiveErrors > 0 then
    if receiveErrors = 1 then "Err:media downloading was failed"
    else if receiveErrors = n then "Err:all of media downloading were failed"
    else "Err:some of media downloading were failed"
  else ""

/-- The collector goroutine of `openMedia`: its counters, the progress messages
it has passed to `changeBufferState`, and whether it has left its loop. -/
structure Collector where
  count : Nat
  receiveErrors : Nat
  published : List String
  exited : Bool
deriving DecidableEq, Repr

/-- The message `fmt.Sprintf("Downloading...(%d/%d)", count, n)`. -/
def progressMessage (count n : Nat) : String :=
  "Downloading...(" ++ toString count ++ "/" ++ toString n ++ ")"

/-- One iteration of the collector loop, on the value `rec` received from `mes`. -/
def collectorStep (n : Nat) (c : Collector) (rec : Int) : Collector :=
  if rec = -1 then
    { c with receiveErrors := c.receiveErrors + 1 }
  else
    { c with
      count := c.count + 1
      published := c.published ++ [progressMessage (c.count + 1) n]
      exited := decide (c.count + 1 = n) }

/-- The collector goroutine fed the values `msgs` in order: it stops taking
values once it has left its loop, and is otherwise left waiting on `<-mes`. -/
def collector (n : Nat) : List Int → Collector → Collector
  | [], c => c
  | rec :: rest, c => if c.exited then c else collector n rest (collectorStep n c rec)

/-- The collector as it starts: `count := 0`, `receiveErrors := 0`. -/
def Collector.start : Collector := ⟨0, 0, [], false⟩

/-- The number of values the collector takes from `msgs` before it leaves its
loop or runs out of values. -/
def drained (n : Nat) : List Int → Collector → Nat
  | [], _ => 0
  | rec :: rest, c => if c.exited then 0 else 1 + drained n rest (collectorStep n c rec)

/-- The statement a `downloadMedia` task runs next; `done mes` once its deferred
function has sent `mes` and called `wg.Done()`. -/
inductive Phase where
  | statTarget
  | get
  | statDir
  | mkdir
  | create
  | done (mes : Int)
deriving DecidableEq, Repr

/-- What `openMedia` gets from the operating system and the network: the
directory `filepath.Join(os.TempDir(), tempDir)`, the path
`filepath.Join(os.TempDir(), tempDir, filename)` of a file name, whether the GET
of task `i` returns status 200 with a readable body, and whether `os.Mkdir` and
the exclusive `os.OpenFile` of task `i` succeed when the path is free. -/
structure Env where
  tempdir : String
  join : String → String
  getOk : Nat → Bool
  mkdirOk : Nat → Bool
  createOk : Nat → Bool

/-- The file component of `path.Split(url)`: what follows the final slash. -/
def pathFile (url : String) : String :=
  String.mk (url.toList.reverse.takeWhile (fun c => c ≠ '/')).reverse

/-- The shared state while the goroutines of `openMedia` run: the paths at
which `os.Stat` succeeds, the tasks, the contents of the channel `mes`, the
tasks that issued a GET, and the collector. -/
structure Run where
  fs : List String
  tasks : List Phase
  mes : List Int
  gets : List Nat
  coll : Collector
deriving Repr

/-- The deferred function of task `i`: send `mes` and mark the task done. -/
def Run.finish (r : Run) (i : Nat) (mes : Int) : Run :=
  { r with tasks := r.tasks.set i (.done mes), mes := r.mes ++ [mes] }

/-- Task `i` moves on to the statement `ph`. -/
def Run.goto (r : Run) (i : Nat) (ph : Phase) : Run :=
  { r with tasks := r.tasks.set i ph }

/-- One statement of the `downloadMedia` task `i`, whose target is `path`. -/
def stepTask (E : Env) (i : Nat) (path : String) (ph : Phase) (r : Run) : Run :=
  match ph with
  | .statTarget => if path ∈ r.fs then r.finish i 1 else r.goto i .get
  | .get =>
    let r1 := { r with gets := r.gets ++ [i] }
    if E.getOk i then r1.goto i .statDir else r1.finish i (-1)
  | .statDir => if E.tempdir ∈ r.fs then r.goto i .create else r.goto i .mkdir
  | .mkdir =>
    if E.tempdir ∉ r.fs ∧ E.mkdirOk i then
      { r with fs := E.tempdir :: r.fs }.goto i .create
    else r.finish i (-1)
  | .create =>
    if path ∉ r.fs ∧ E.createOk i then
      { r with fs := path :: r.fs }.finish i 1
    else r.finish i (-1)
  | .done _ => r

/-- A goroutine that runs next: download task `i`, or the collector. -/
inductive Act where
  | task (i : Nat)
  | collect
deriving DecidableEq, Repr

/-- One step of the goroutine `a`; a finished task, a collector that has left
its loop and a collector waiting on an empty channel do nothing. -/
def stepAct (E : Env) (fileps : List String) (a : Act) (r : Run) : Run :=
  match a with
  | .task i =>
    match r.tasks[i]?, fileps[i]? with
    | some ph, some path => stepTask E i path ph r
    | _, _ => r
  | .collect =>
    if r.coll.exited then r
    else
      match r.mes with
      | [] => r
      | rec :: rest => { r with mes := rest, coll := collectorStep fileps.length r.coll rec }

/-- The goroutines run in the order `sched`. -/
def runSched (E : Env) (fileps : List String) : List Act → Run → Run
  | [], r => r
  | a :: rest, r => runSched E fileps rest (stepAct E fileps a r)

/-- The paths `fileps` that `openMedia` computes, one per URL. -/
def localPaths (E : Env) (urls : List String) : List String :=
  urls.map (fun url => E.join (pathFile url))

/-- The loop `for i := len(fileps) - 1; i >= 0; i--` of `openMedia`, entered with
`i + 1 = k`: the `openCommand` calls it makes, each with the index of its URL. -/
def openLoop (fs : List String) (fileps : List String) : Nat → List (Nat × String)
  | 0 => []
  | i + 1 =>
    match fileps[i]? with
    | some path => (if path ∈ fs then [(i, path)] else []) ++ openLoop fs fileps i
    | none => openLoop fs fileps i

/-- Whether a task has finished. -/
def Phase.isDone : Phase → Bool
  | .done _ => true
  | _ => false

/-- What a run of `openMedia` did: the `openCommand` calls with the index of
their URL, the outcome each task sent, the arguments of `changeBufferState` in
the main goroutine, and the shared state at the end. -/
structure Opened where
  opens : List (Nat × String)
  tasks : List Phase
  status : String
  final : Run
deriving Repr

/-- The function `openMedia` on `urls`, from the existing paths `fs0`, with the
goroutines scheduled as `sched` until `wg.Wait()` returns and as `during` while
the main goroutine runs the reverse loop.  `none` when a task has not finished
at the end of `sched`, so that `wg.Wait()` is still blocked. -/
def openMedia (E : Env) (urls : List String) (fs0 : List String)
    (sched during : List Act) : Option Opened :=
  let fileps := localPaths E urls
  let r0 : Run := ⟨fs0, urls.map (fun _ => Phase.statTarget), [], [], Collector.start⟩
  let r1 := runSched E fileps sched r0
  if r1.tasks.all Phase.isDone then
    let opens := openLoop r1.fs fileps fileps.length
    let r2 := runSched E fileps during r1
    some ⟨opens, r1.tasks, finalStatus r2.coll.receiveErrors urls.length, r2⟩
  else none

/-- A schedule that runs every task to its end, one after the other. -/
def sequential (n : Nat) : List Act :=
  (List.range n).flatMap (fun i => List.replicate 5 (Act.task i))

/-- An environment for examples: every GET, `Mkdir` and `OpenFile` succeeds. -/
def exampleEnv : Env :=
  ⟨"/tmp/ringot", fun name => "/tmp/ringot/" ++ name, fun _ => true, fun _ => true,
    fun _ => true⟩

/-- While the tasks run, a task that is past its first `os.Stat` and has not
reported success has no file at its target (used in the proofs). -/
def TargetsFree (fileps : List String) (r : Run) : Prop :=
  ∀ (i : Nat) (ph : Phase) (path : String), r.tasks[i]? = some ph → fileps[i]? = some path →
    ph ≠ Phase.statTarget → ph ≠ Phase.done 1 → path ∉ r.fs

/-- An environment for examples in which the GET of task `1` fails. -/
def exampleEnvFail : Env :=
  ⟨"/tmp/ringot", fun name => "/tmp/ringot/" ++ name, fun i => decide (i ≠ 1), fun _ => true,
    fun _ => true⟩

/-- The number of statements a task may still run (used in the proofs). -/
def Phase.rank : Phase → Nat
  | .statTarget => 5
  | .get => 4
  | .statDir => 3
  | .mkdir => 2
  | .create => 1
  | .done _ => 0

/-! ## The advisory lock -/

/-- The type `lock`: whether `mutex` is held, and the flag `locking`. -/
structure lock where
  mutex : Bool
  locking : Nat
deriving DecidableEq, Repr

/-- The error values `lock.lock` returns: `nil` or `ErrAlreayLocking`. -/
inductive LockError where
  | nil
  | ErrAlreayLocking
deriving DecidableEq, Repr

/-- The method `lock.lock` called by one goroutine: the returned error and the
lock afterwards; `none` when the call waits on a held mutex. -/
def lock.lock (l : Ringot.lock) : Option (LockError × Ringot.lock) :=
  if l.locking = 1 then some (LockError.ErrAlreayLocking, l)
  else if l.mutex then none
  else
    let l1 := if l.locking = 0 then { l with locking := 1 } else l
    some (LockError.nil, l1)

/-- The method `lock.unlock`; `none` when the call waits on a held mutex. -/
def lock.unlock (l : Ringot.lock) : Option Ringot.lock :=
  if l.mutex then none
  else some (if l.locking = 1 then { l with locking := 0 } else l)

/-- The method `lock.isLocking`; `none` when the call waits on a held mutex. -/
def lock.isLocking (l : Ringot.lock) : Option Bool :=
  if l.mutex then none
  else some (decide (l.locking = 1))

/-- The zero value of `lock`. -/
def lock.zero : Ringot.lock := ⟨false, 0⟩

/-! ## Label colours -/

/-- The package-level values `generateLabelColorByUserID` reads but `utility.go`
does not declare: the palette `LabelColors`, and the draw
`rand.Seed(id); rand.Intn(n)` as a function of `id` and `n`. -/
structure Palette where
  LabelColors : List Attribute
  seededIntn : Int → Nat → Int

/-- The variable `LabelColorMap` (a `map[int64]int`). -/
abbrev ColorMap := Int → Option Int

/-- The assignment `LabelColorMap[id] = val`. -/
def ColorMap.set (m : ColorMap) (id : Int) (val : Int) : ColorMap :=
  fun k => if k = id then some val else m k

/-- The expression `LabelColors[val]`; `none` when the index is out of range
(a run-time panic). -/
def Palette.color (P : Palette) (val : Int) : Option Attribute :=
  if val < 0 then none else P.LabelColors[val.toNat]?

/-- The function `generateLabelColorByUserID`: the colour returned (`none` on a
run-time panic) and `LabelColorMap` afterwards. -/
def generateLabelColorByUserID (P : Palette) (m : ColorMap) (id : Int) :
    Option Attribute × ColorMap :=
  match m id with
  | some val => (P.color val, m)
  | none =>
    if P.LabelColors.length = 0 then (none, m)
    else
      let val := P.seededIntn id P.LabelColors.length
      (P.color val, m.set id val)

/-- The contents of `LabelColorMap` after calls of `generateLabelColorByUserID`
for `ids`, one after the other. -/
def colorCalls (P : Palette) : List Int → ColorMap → ColorMap
  | [], m => m
  | id :: rest, m => colorCalls P rest (generateLabelColorByUserID P m id).2

/-- A palette for examples: four colours, and a draw that stays below `n`. -/
def examplePalette : Palette := ⟨[2, 3, 4, 6], fun id n => id.natAbs % n⟩

/-! ## One download task on its own -/

/-- What a `downloadMedia` task leaves behind when nothing else runs meanwhile:
the existing paths, the values it sent on `mes`, and the number of GETs it issued. -/
structure Download where
  fs : List String
  sent : List Int
  gets : Nat
deriving DecidableEq, Repr

/-- The call `os.Mkdir(tempdir, 0775)` of task `i`: the paths afterwards, `none`
when it returns an error. -/
def osMkdir (E : Env) (i : Nat) (fs : List String) : Option (List String) :=
  if E.tempdir ∉ fs ∧ E.mkdirOk i then some (E.tempdir :: fs) else none

/-- The call `os.OpenFile(filefullpath, O_CREATE|O_WRONLY|O_EXCL, 0664)` of task
`i`: the paths afterwards, `none` when it returns an error. -/
def osCreate (E : Env) (i : Nat) (path : String) (fs : List String) :
    Option (List String) :=
  if path ∉ fs ∧ E.createOk i then some (path :: fs) else none

/-- The function `downloadMedia` of task `i` with target `path`, run from start
to end: a `panic` makes the deferred function send `-1`, a normal return `1`. -/
def downloadMedia (E : Env) (i : Nat) (path : String) (fs : List String) : Download :=
  if path ∈ fs then ⟨fs, [1], 0⟩
  else if E.getOk i = false then ⟨fs, [-1], 1⟩
  else
    match (if E.tempdir ∈ fs then some fs else osMkdir E i fs) with
    | none => ⟨fs, [-1], 1⟩
    | some fs1 =>
      match osCreate E i path fs1 with
      | none => ⟨fs1, [-1], 1⟩
      | some fs2 => ⟨fs2, [1], 1⟩

/-- The states `st1` of the iterations of `drawLoop`, one per `SetCell` call
(the values of `pos`, `foreColor`, `backColor`, `fgChanging`, `bgChanging` when
the call is made). -/
def scanStates (K : Term) (fg bg : Attribute) : Nat → List UInt8 → Scan → List Scan
  | 0, _, _ => []
  | fuel + 1, t, st =>
    if t.length = 0 then []
    else
      let c := (decodeRune t).1
      let s := (decodeRune t).2
      let st1 := scanStep K fg bg t st
      st1 :: scanStates K fg bg fuel (t.drop s) { st1 with pos := st1.pos + K.RuneWidth c }

/-- The three modes of the scanner for caller colours `fg`, `bg`: normal,
mention span, hashtag span. -/
def Scan.Mode (K : Term) (fg bg : Attribute) (st : Scan) : Prop :=
  (st.fgChanging = false ∧ st.bgChanging = false ∧ st.foreColor = fg ∧ st.backColor = bg)
  ∨ (st.fgChanging = false ∧ st.bgChanging = true ∧ st.foreColor = fg
      ∧ st.backColor = K.ColorLowlight)
  ∨ (st.fgChanging = true ∧ st.bgChanging = false ∧ st.foreColor = K.ColorBlue
      ∧ st.backColor = bg)

/-- A terminal for examples with wide and zero-width runes: the zero width space
U+200B takes no column, runes from U+1100 on take two, all others one. -/
def exampleTermWide : Term :=
  ⟨5, 9, fun r => if r = 0x200B then 0 else if r ≥ 0x1100 then 2 else 1⟩

/-- A call made on a lock: `lock()` or `unlock()`. -/
inductive LockCall where
  | lock
  | unlock
deriving DecidableEq, Repr

/-- The calls `calls` made one after the other on the lock `l`: the lock
afterwards, `none` when one of them waits on a held mutex. -/
def lock.calls : List LockCall → Ringot.lock → Option Ringot.lock
  | [], l => some l
  | LockCall.lock :: rest, l =>
    match l.lock with
    | some (_, l1) => lock.calls rest l1
    | none => none
  | LockCall.unlock :: rest, l =>
    match l.unlock with
    | some l1 => lock.calls rest l1
    | none => none

/-- The statement a goroutine inside `lock.lock` runs next: the flag check
`atomic.LoadUint32`, `mutex.Lock()`, the test and store of the flag, the
deferred `mutex.Unlock()`; `returned e` once the call has returned `e`. -/
inductive LockPc where
  | check
  | acquire
  | store
  | release
  | returned (e : LockError)
deriving DecidableEq, Repr

/-- A lock and the goroutines that are inside `lock.lock` on it. -/
structure LockRace where
  l : Ringot.lock
  callers : List LockPc
deriving DecidableEq, Repr

/-- One statement of caller `i`; a caller waiting on a held mutex and a caller
that has returned do nothing. -/
def lockStep (i : Nat) (s : LockRace) : LockRace :=
  match s.callers[i]? with
  | some LockPc.check =>
    if s.l.locking = 1 then
      { s with callers := s.callers.set i (LockPc.returned LockError.ErrAlreayLocking) }
    else { s with callers := s.callers.set i LockPc.acquire }
  | some LockPc.acquire =>
    if s.l.mutex then s
    else { l := { s.l with mutex := true }, callers := s.callers.set i LockPc.store }
  | some LockPc.store =>
    { l := if s.l.locking = 0 then { s.l with locking := 1 } else s.l,
      callers := s.callers.set i LockPc.release }
  | some LockPc.release =>
    { l := { s.l with mutex := false },
      callers := s.callers.set i (LockPc.returned LockError.nil) }
  | _ => s

/-- The callers run in the order `sched`. -/
def lockRace : List Nat → LockRace → LockRace
  | [], s => s
  | i :: rest, s => lockRace rest (lockStep i s)

/-- Every `-1` sent is in the channel or counted by the collector (used in the
proofs). -/
def FailuresCounted (r : Run) : Prop :=
  r.mes.count (-1) + r.coll.receiveErrors = r.tasks.count (Phase.done (-1))

/-- The loop of `drawText` over the decoded runes (used in the proofs). -/
def drawTextRunes (K : Term) (x y : Int) (fg bg : Attribute) : List Int → Nat → List Cell
  | [], _ => []
  | c :: rest, i => ⟨x + i, y, c, fg, bg⟩ :: drawTextRunes K x y fg bg rest (i + K.RuneWidth c)

/-! ## Byte slices (`byteSliceRemove`, `byteSliceInsert`) -/

/-- A Go `[]byte`: the elements `arr` of its array from the start of the slice
up to its capacity, and its length `len`; `cap` is `arr.length`. -/
structure Slice where
  arr : List UInt8
  len : Nat
deriving DecidableEq, Repr

/-- The elements of a slice. -/
def Slice.bytes (s : Slice) : List UInt8 := s.arr.take s.len

/-- The built-in `copy(dst[off:], vals)` on the array `arr` of `dst`, where `n` is
the smaller of the two lengths: `n` elements of `vals` are written from index
`off` on (`vals` is read before anything is written, as `copy` does for
overlapping slices). -/
def copyInto (arr : List UInt8) (off n : Nat) (vals : List UInt8) : List UInt8 :=
  arr.take off ++ vals.take n ++ arr.drop (off + n)

/-- The function `byteSliceRemove`; `none` when a slice expression is out of
range (a run-time panic). -/
def byteSliceRemove (bytes : Slice) (from_ to_ : Int) : Option Slice :=
  if from_ < 0 ∨ (bytes.len : Int) < from_ ∨ to_ < 0 ∨ (bytes.len : Int) < to_ then none
  else
    let n := min (bytes.len - from_.toNat) (bytes.len - to_.toNat)
    let arr1 := copyInto bytes.arr from_.toNat n (bytes.bytes.drop to_.toNat)
    let newLen : Int := bytes.len + from_ - to_
    if newLen < 0 ∨ (arr1.length : Int) < newLen then none
    else some ⟨arr1, newLen.toNat⟩

/-- The function `byteSliceInsert`, with `src` given by its elements (it shares
no storage with `dst`); `none` when a slice expression is out of range. -/
def byteSliceInsert (dst : Slice) (src : List UInt8) (pos : Int) : Option Slice :=
  let length := dst.len + src.length
  let dst1 : Slice :=
    if dst.arr.length < length then
      ⟨copyInto (List.replicate length 0) 0 (min dst.len dst.len) dst.bytes, dst.len⟩
    else dst
  let dst2 : Slice := ⟨dst1.arr, length⟩
  if pos < 0 ∨ (length : Int) < pos + src.length then none
  else
    let p := pos.toNat
    let n1 := min (length - (p + src.length)) (length - p)
    let arr1 := copyInto dst2.arr (p + src.length) n1 (dst2.bytes.drop p)
    let n2 := min (length - p) src.length
    let arr2 := copyInto arr1 p n2 src
    some ⟨arr2, length⟩

/-! ## Centring (`centeringStr`) -/

/-- The loop `for i := 0; i < n; i++ { val += " " }`. -/
def appendSpaces : Nat → List UInt8 → List UInt8
  | 0, val => val
  | n + 1, val => appendSpaces n (val ++ [0x20])

/-- The value of a Go `int` operation whose exact result is `z`, for an `int` of
`bits` bits.  The size of `int` is fixed by the target and not by the source
(32 or 64 bits; 64 on the usual linux and darwin targets that `openCommand`
knows); the result wraps around in two's complement. -/
def wrapInt (bits : Nat) (z : Int) : Int :=
  (z + 2 ^ (bits - 1)) % 2 ^ bits - 2 ^ (bits - 1)

/-- The function `centeringStr` on the bytes of `str`, for an `int` of `bits`
bits.  The subtraction `width - len(str)` and the addition `(sub/2)+1` are `int`
operations and wrap around.  Past the test `sub <= 0` the value `sub` is
positive, where Go's `/` and `%` are the division and remainder used here. -/
def centeringStr (bits : Nat) (str : List UInt8) (width : Int) : List UInt8 :=
  let sub : Int := wrapInt bits (width - str.length)
  if sub ≤ 0 then str
  else
    let val : List UInt8 := []
    let val :=
      if sub % 2 = 0 then appendSpaces (sub / 2).toNat val
      else appendSpaces (wrapInt bits ((sub / 2) + 1)).toNat val
    let val := val ++ str
    appendSpaces (sub / 2).toNat val

/-- Every finished task has sent one value, which is in the channel or has been
taken by the collector (used in the proofs). -/
def OutcomesCounted (r : Run) : Prop :=
  r.mes.length + r.coll.count + r.coll.receiveErrors = r.tasks.countP Phase.isDone

/-! ## UTF-8 decoding facts -/

/-- The values the table `first` takes. -/
theorem first_cases (b : Nat) :
    first b = 0xF0 ∨ first b = 0xF1 ∨ first b = 0x02 ∨ first b = 0x13 ∨
    first b = 0x03 ∨ first b = 0x23 ∨ first b = 0x34 ∨ first b = 0x04 ∨ first b = 0x44 := by
  unfold first
  split_ifs <;> simp

theorem decodeRune_nil : decodeRune [] = (RuneError, 0) := by
  simp [decodeRune]

theorem decodeRune_size_pos (p : List UInt8) (hp : p ≠ []) : 1 ≤ (decodeRune p).2 := by
  have hlen : ¬ p.length < 1 := by
    cases p with
    | nil => exact absurd rfl hp
    | cons a q => simp
  unfold decodeRune
  simp only [hlen, if_false]
  split_ifs <;> simp

theorem decodeRune_size_le (p : List UInt8) : (decodeRune p).2 ≤ p.length := by
  cases p with
  | nil => simp [decodeRune]
  | cons a q =>
    unfold decodeRune
    rcases first_cases a.toNat with h | h | h | h | h | h | h | h | h
    all_goals
      simp only [List.getD_cons_zero, h, List.length_cons, acceptRanges]
      norm_num
      all_goals (split_ifs <;> simp <;> omega)


theorem decodeRune_ascii (b : UInt8) (r : List UInt8) (hb : b.toNat < 0x80) :
    decodeRune (b :: r) = ((b.toNat : Int), 1) := by
  have hf : first b.toNat = 0xF0 := by
    unfold first; simp [hb]
  unfold decodeRune
  simp [hf]

/-- What `decodeRune` returns on `w` does not change when an ASCII byte and more
bytes follow `w`. -/
theorem decodeRune_append_ascii (w : List UInt8) (b : UInt8) (r : List UInt8)
    (hw : w ≠ []) (hb : b.toNat < 0x80) :
    decodeRune (w ++ b :: r) = decodeRune w := by
  match w, hw with
  | [p0], _ =>
    unfold decodeRune
    rcases first_cases p0.toNat with h | h | h | h | h | h | h | h | h
    all_goals
      simp only [List.getD_cons_zero, h, List.length_cons, acceptRanges, List.singleton_append,
        List.getD_cons_succ, List.length_nil, List.cons_append, List.nil_append]
      norm_num <;> (intros; omega)
  | [p0, p1], _ =>
    unfold decodeRune
    rcases first_cases p0.toNat with h | h | h | h | h | h | h | h | h
    all_goals
      simp only [List.getD_cons_zero, h, List.length_cons, acceptRanges, List.singleton_append,
        List.getD_cons_succ, List.length_nil, List.cons_append, List.nil_append]
      norm_num <;> (intros; omega)
  | [p0, p1, p2], _ =>
    unfold decodeRune
    rcases first_cases p0.toNat with h | h | h | h | h | h | h | h | h
    all_goals
      simp only [List.getD_cons_zero, h, List.length_cons, acceptRanges, List.singleton_append,
        List.getD_cons_succ, List.length_nil, List.cons_append, List.nil_append]
      norm_num <;> (intros; omega)
  | p0 :: p1 :: p2 :: p3 :: q, _ =>
    unfold decodeRune
    simp only [List.getD_cons_zero, List.length_cons, List.cons_append,
        List.getD_cons_succ, List.length_append]
    rcases first_cases p0.toNat with h | h | h | h | h | h | h | h | h
    all_goals
      simp only [h, acceptRanges]
      norm_num <;> first | omega | (split_ifs <;> first | rfl | omega)


/-! ## The rune sequence of a byte string -/

theorem runesFuel_fuel (f1 : Nat) : ∀ (f2 : Nat) (t : List UInt8),
    t.length ≤ f1 → t.length ≤ f2 → runesFuel f1 t = runesFuel f2 t := by
  induction f1 with
  | zero =>
    intro f2 t h1 _
    have ht : t = [] := List.length_eq_zero.mp (Nat.le_zero.mp h1)
    subst ht
    cases f2 <;> simp [runesFuel]
  | succ f1 ih =>
    intro f2 t h1 h2
    cases t with
    | nil => cases f2 <;> simp [runesFuel]
    | cons a q =>
      cases f2 with
      | zero => simp at h2
      | succ f2 =>
        have hpos := decodeRune_size_pos (a :: q) (by simp)
        have hlen : ((a :: q).drop (decodeRune (a :: q)).2).length ≤ q.length := by
          simp only [List.length_drop, List.length_cons]; omega
        simp only [List.length_cons] at h1 h2
        simp only [runesFuel, List.length_cons, Nat.add_one_ne_zero, if_false]
        rw [ih f2 _ (by omega) (by omega)]

theorem runes_nil : runes [] = [] := by
  simp [runes, runesFuel]

theorem runes_step (t : List UInt8) (ht : t ≠ []) :
    runes t = (decodeRune t).1 :: runes (t.drop (decodeRune t).2) := by
  cases t with
  | nil => exact absurd rfl ht
  | cons a q =>
    have hpos := decodeRune_size_pos (a :: q) (by simp)
    have hlen : ((a :: q).drop (decodeRune (a :: q)).2).length ≤ q.length := by
      simp only [List.length_drop, List.length_cons]; omega
    unfold runes
    simp only [runesFuel, List.length_cons, Nat.add_one_ne_zero, if_false]
    rw [runesFuel_fuel q.length _ _ hlen (le_refl _)]

theorem runes_eq_nil (t : List UInt8) : runes t = [] ↔ t = [] := by
  constructor
  · intro h
    by_contra hne
    rw [runes_step t hne] at h
    exact List.cons_ne_nil _ _ h
  · rintro rfl; exact runes_nil

theorem decodeRune_fst (t : List UInt8) : (decodeRune t).1 = (runes t).headD RuneError := by
  by_cases ht : t = []
  · subst ht; simp [runes_nil, decodeRune_nil]
  · rw [runes_step t ht]; rfl

theorem runes_drop (t : List UInt8) : runes (t.drop (decodeRune t).2) = (runes t).tail := by
  by_cases ht : t = []
  · subst ht; simp [runes_nil]
  · rw [runes_step t ht]; rfl

theorem length_gt_iff (t : List UInt8) (s : Nat) :
    decide (t.length > s) = !(runes (t.drop s)).isEmpty := by
  by_cases h : t.length > s
  · have : t.drop s ≠ [] := by
      intro h0
      have := congrArg List.length h0
      simp at this; omega
    have h2 : runes (t.drop s) ≠ [] := fun h0 => this ((runes_eq_nil _).mp h0)
    cases hr : runes (t.drop s) with
    | nil => exact absurd hr h2
    | cons a q => simp [h]
  · have : t.drop s = [] := List.drop_eq_nil_of_le (by omega)
    simp [this, runes_nil, h]

theorem scanStep_eq (K : Term) (fg bg : Attribute) (t : List UInt8) (st : Scan) :
    scanStep K fg bg t st
      = scanStepR K fg bg (decodeRune t).1 (runes (t.drop (decodeRune t).2)) st := by
  unfold scanStep scanStepR
  simp only [length_gt_iff]
  split_ifs <;> simp_all [← List.drop_drop, runes_drop, decodeRune_fst]

theorem drawLoop_eq (K : Term) (x y : Int) (fg bg : Attribute) (fuel : Nat) :
    ∀ (t : List UInt8) (st : Scan), t.length ≤ fuel →
      drawLoop K x y fg bg fuel t st = drawRunes K x y fg bg (runes t) st := by
  induction fuel with
  | zero =>
    intro t st h
    have ht : t = [] := List.length_eq_zero.mp (Nat.le_zero.mp h)
    subst ht
    simp [drawLoop, runes_nil, drawRunes]
  | succ fuel ih =>
    intro t st h
    cases t with
    | nil => simp [drawLoop, runes_nil, drawRunes]
    | cons a q =>
      have hpos := decodeRune_size_pos (a :: q) (by simp)
      have hlen : ((a :: q).drop (decodeRune (a :: q)).2).length ≤ fuel := by
        simp only [List.length_drop, List.length_cons] at h ⊢; omega
      rw [runes_step (a :: q) (by simp)]
      simp only [drawLoop, List.length_cons, Nat.add_one_ne_zero, if_false, drawRunes]
      rw [ih _ _ hlen, scanStep_eq]

/-- The byte loop of `drawTextWithAutoNotice` is the rune loop on the decoded runes. -/
theorem drawTextWithAutoNotice_eq (K : Term) (str : List UInt8) (x y : Int)
    (fg bg : Attribute) :
    drawTextWithAutoNotice K str x y fg bg
      = drawRunes K x y fg bg (runes str) ⟨0, fg, bg, false, false⟩ :=
  drawLoop_eq K x y fg bg str.length str _ (le_refl _)

/-! ## Rune sequences of concatenations -/

theorem runes_cons_ascii (b : UInt8) (r : List UInt8) (hb : b.toNat < 0x80) :
    runes (b :: r) = (b.toNat : Int) :: runes r := by
  rw [runes_step (b :: r) (by simp), decodeRune_ascii b r hb]
  rfl

theorem runes_ascii_append (h r : List UInt8) (hh : ∀ b ∈ h, b.toNat < 0x80) :
    runes (h ++ r) = h.map (fun b => (b.toNat : Int)) ++ runes r := by
  induction h with
  | nil => rfl
  | cons a q ih =>
    have ha : a.toNat < 0x80 := hh a (by simp)
    have hq : ∀ b ∈ q, b.toNat < 0x80 := fun b hb => hh b (by simp [hb])
    rw [List.cons_append, runes_cons_ascii a _ ha, ih hq]
    rfl

theorem runes_append_ascii (b : UInt8) (r : List UInt8) (hb : b.toNat < 0x80) (n : Nat) :
    ∀ w : List UInt8, w.length ≤ n → runes (w ++ b :: r) = runes w ++ runes (b :: r) := by
  induction n with
  | zero =>
    intro w hw
    have : w = [] := List.length_eq_zero.mp (Nat.le_zero.mp hw)
    subst this
    simp [runes_nil]
  | succ n ih =>
    intro w hw
    by_cases hnil : w = []
    · subst hnil; simp [runes_nil]
    · have hpos := decodeRune_size_pos w hnil
      have hle := decodeRune_size_le w
      have hdec := decodeRune_append_ascii w b r hnil hb
      rw [runes_step (w ++ b :: r) (by simp), runes_step w hnil, hdec,
        List.drop_append_of_le_length hle, ih (w.drop (decodeRune w).2)
          (by simp only [List.length_drop]; omega)]
      rfl


/-! ## Spans of the highlighter -/

theorem isScreenNameUsable_ne_space (c : Int) (h : isScreenNameUsable c = true) :
    c ≠ 0x20 := by
  rintro rfl
  simp [isScreenNameUsable] at h

/-- Inside a mention span a handle-usable rune leaves the colours alone. -/
theorem scanStepR_mention_keep (K : Term) (fg bg : Attribute) (c : Int) (rest : List Int)
    (st : Scan) (hb : st.bgChanging = true) (hc : isScreenNameUsable c = true) :
    scanStepR K fg bg c rest st = st := by
  have := isScreenNameUsable_ne_space c hc
  simp [scanStepR, hb, hc, this]

/-- Inside a mention span a rune that is not handle-usable ends the span. -/
theorem scanStepR_mention_end (K : Term) (fg bg : Attribute) (c : Int) (rest : List Int)
    (st : Scan) (hb : st.bgChanging = true) (hc : isScreenNameUsable c = false) :
    scanStepR K fg bg c rest st = { st with backColor := bg, bgChanging := false } := by
  simp [scanStepR, hb, hc]

/-- A run of handle-usable runes inside a mention span is drawn with the span's colours. -/
theorem drawRunes_mention_run (K : Term) (x y : Int) (fg bg : Attribute) (rs : List Int) :
    ∀ (hs : List Int) (st : Scan), st.bgChanging = true →
      (∀ c ∈ hs, isScreenNameUsable c = true) →
      ∃ st2 : Scan, st2.foreColor = st.foreColor ∧ st2.backColor = st.backColor ∧
        st2.bgChanging = true ∧ st2.fgChanging = st.fgChanging ∧
        (drawRunes K x y fg bg (hs ++ rs) st).map Cell.paint
          = hs.map (fun c => (c, st.foreColor, st.backColor))
            ++ (drawRunes K x y fg bg rs st2).map Cell.paint := by
  intro hs
  induction hs with
  | nil => intro st hb _; exact ⟨st, rfl, rfl, hb, rfl, rfl⟩
  | cons c q ih =>
    intro st hb hq
    have hc : isScreenNameUsable c = true := hq c (by simp)
    obtain ⟨st2, h1, h2, h3, h4, h5⟩ :=
      ih { st with pos := st.pos + K.RuneWidth c } hb (fun d hd => hq d (by simp [hd]))
    refine ⟨st2, h1, h2, h3, h4, ?_⟩
    rw [List.cons_append, drawRunes]
    simp only [scanStepR_mention_keep K fg bg c _ st hb hc, List.map_cons, List.cons_append]
    rw [h5]
    rfl

/-- Inside a hashtag span a rune leaves the colours alone unless it is a space
that is not followed by `#`. -/
theorem scanStepR_hashtag_keep (K : Term) (fg bg : Attribute) (c : Int) (rest : List Int)
    (st : Scan) (hf : st.fgChanging = true) (hb : st.bgChanging = false)
    (hc : c = 0x20 → rest.head? = some 0x23) :
    scanStepR K fg bg c rest st = st := by
  by_cases h : c = 0x20
  · have := hc h
    cases rest with
    | nil => simp at this
    | cons d q =>
      simp only [List.head?_cons, Option.some.injEq] at this
      simp [scanStepR, hf, hb, h, this]
  · simp [scanStepR, hf, hb, h]

/-- Inside a hashtag span a space that is not followed by `#` ends the span. -/
theorem scanStepR_hashtag_end (K : Term) (fg bg : Attribute) (rest : List Int)
    (st : Scan) (hf : st.fgChanging = true) (hb : st.bgChanging = false)
    (hc : rest.headD RuneError ≠ 0x23) :
    scanStepR K fg bg 0x20 rest st = { st with foreColor := fg, fgChanging := false } := by
  cases rest with
  | nil => simp [scanStepR, hf, hb, RuneError]
  | cons d q =>
    simp only [List.headD_cons] at hc
    simp [scanStepR, hf, hb, hc]

/-- A hashtag span runs through every rune as long as each space is followed by `#`. -/
theorem drawRunes_hashtag_run (K : Term) (x y : Int) (fg bg : Attribute) :
    ∀ (l : List Int) (st : Scan), st.fgChanging = true → st.bgChanging = false →
      SpaceThenHash l →
      (drawRunes K x y fg bg l st).map Cell.paint
        = l.map (fun c => (c, st.foreColor, st.backColor)) := by
  intro l
  induction l with
  | nil => intro st _ _ _; rfl
  | cons c q ih =>
    intro st hf hb hl
    have hstep := scanStepR_hashtag_keep K fg bg c q st hf hb hl.1
    rw [drawRunes]
    simp only [hstep, List.map_cons]
    rw [ih { st with pos := st.pos + K.RuneWidth c } hf hb hl.2]
    rfl

/-- A hashtag span runs through a space-free word and ends at the space after
it when that space is not followed by `#`. -/
theorem drawRunes_hashtag_word (K : Term) (x y : Int) (fg bg : Attribute) (rs : List Int)
    (hr : rs.headD RuneError ≠ 0x23) :
    ∀ (w : List Int) (st : Scan), st.fgChanging = true → st.bgChanging = false →
      (0x20 : Int) ∉ w →
      ∃ tail : List (Int × Attribute × Attribute),
        (drawRunes K x y fg bg (w ++ 0x20 :: rs) st).map Cell.paint
          = w.map (fun c => (c, st.foreColor, st.backColor))
            ++ (0x20, fg, st.backColor) :: tail := by
  intro w
  induction w with
  | nil =>
    intro st hf hb _
    refine ⟨(drawRunes K x y fg bg rs
      { st with foreColor := fg, fgChanging := false, pos := st.pos + K.RuneWidth 0x20 }).map
        Cell.paint, ?_⟩
    rw [List.nil_append, drawRunes]
    simp only [scanStepR_hashtag_end K fg bg rs st hf hb hr, List.map_cons, List.map_nil,
      List.nil_append]
    rfl
  | cons c q ih =>
    intro st hf hb hw
    have hc : c ≠ 0x20 := fun h => hw (by simp [h])
    have hq : (0x20 : Int) ∉ q := fun h => hw (by simp [h])
    have hstep := scanStepR_hashtag_keep K fg bg c (q ++ 0x20 :: rs) st hf hb
      (fun h => absurd h hc)
    obtain ⟨tail, ht⟩ := ih { st with pos := st.pos + K.RuneWidth c } hf hb hq
    refine ⟨tail, ?_⟩
    rw [List.cons_append, drawRunes]
    simp only [hstep, List.map_cons, List.cons_append]
    rw [ht]
    rfl

/-- At the start of the text `@` followed by a handle-usable rune opens a mention span. -/
theorem scanStepR_mention_start (K : Term) (fg bg : Attribute) (c : Int) (rest : List Int)
    (hc : isScreenNameUsable c = true) :
    scanStepR K fg bg 0x40 (c :: rest) ⟨0, fg, bg, false, false⟩
      = ⟨0, fg, K.ColorLowlight, false, true⟩ := by
  simp [scanStepR, hc]

/-- At the start of the text `#` followed by a rune that is not a space opens a
hashtag span. -/
theorem scanStepR_hashtag_start (K : Term) (fg bg : Attribute) (c : Int) (rest : List Int)
    (hc : c ≠ 0x20) :
    scanStepR K fg bg 0x23 (c :: rest) ⟨0, fg, bg, false, false⟩
      = ⟨0, K.ColorBlue, bg, true, false⟩ := by
  simp [scanStepR, hc]


theorem usable_byte_ascii (b : UInt8) (h : isScreenNameUsable (b.toNat : Int) = true) :
    b.toNat < 0x80 := by
  unfold isScreenNameUsable at h
  split_ifs at h <;> omega

theorem runes_chain_cons (w : List UInt8) (ws : List (List UInt8)) :
    runes (hashtagChain (w :: ws))
      = 0x23 :: (runes w ++ (if ws = [] then [] else 0x20 :: runes (hashtagChain ws))) := by
  cases ws with
  | nil =>
    simp only [hashtagChain, if_true, List.append_nil]
    rw [runes_cons_ascii 0x23 w (by decide)]
    rfl
  | cons v vs =>
    simp only [hashtagChain, reduceCtorEq, if_false, List.cons_append]
    rw [runes_cons_ascii 0x23 _ (by decide),
      runes_append_ascii 0x20 _ (by decide) w.length w (le_refl _),
      runes_cons_ascii 0x20 _ (by decide)]
    rfl

theorem SpaceThenHash_append (a b : List Int) (ha : (0x20 : Int) ∉ a)
    (hb : SpaceThenHash b) : SpaceThenHash (a ++ b) := by
  induction a with
  | nil => exact hb
  | cons c q ih =>
    refine ⟨fun h => absurd h (fun h => ha (by simp [h])), ih (fun h => ha (by simp [h]))⟩

theorem SpaceThenHash_chain (ws : List (List UInt8))
    (hws : ∀ w ∈ ws, w ≠ [] ∧ (0x20 : Int) ∉ runes w) :
    SpaceThenHash (runes (hashtagChain ws)) := by
  induction ws with
  | nil => simp [hashtagChain, runes_nil, SpaceThenHash]
  | cons w ws ih =>
    have hw := (hws w (by simp)).2
    have hrest : ∀ v ∈ ws, v ≠ [] ∧ (0x20 : Int) ∉ runes v :=
      fun v hv => hws v (by simp [hv])
    rw [runes_chain_cons]
    refine ⟨fun h => absurd h (by decide), SpaceThenHash_append _ _ hw ?_⟩
    cases ws with
    | nil => simp [SpaceThenHash]
    | cons v vs =>
      simp only [reduceCtorEq, if_false]
      refine ⟨fun _ => ?_, ih hrest⟩
      rw [runes_chain_cons]
      rfl

/-! ## Claims about the highlighter -/

/-- C1 (evaluation at the failing input): on `"@ab #cd"` the space ends the
mention span, and the `#` after it, although preceded by a space and followed by
`c`, is drawn with the caller's foreground `1`, not with `ColorBlue` (`5`). -/
theorem hashtag_after_mention_not_blue :
    (drawTextWithAutoNotice exampleTerm (ascii "@ab #cd") 0 0 1 2).map Cell.paint
      = [(0x40, 1, 9), (0x61, 1, 9), (0x62, 1, 9), (0x20, 1, 2), (0x23, 1, 2),
         (0x63, 1, 2), (0x64, 1, 2)] := by
  decide

/-- C2: on `"@" ++ h ++ r`, with `h` a non-empty handle of handle-usable bytes and
`r` empty or starting with a rune that is not handle-usable, `@` and every rune
of `h` are drawn with the caller's foreground on `ColorLowlight`, and the first
rune of `r` is drawn with the caller's colours; on `"@ab cd"` the cells of `@ab`
are background-highlighted and those of `" cd"` are not. -/
theorem mention_span_drawn (K : Term) (x y : Int) (fg bg : Attribute)
    (h r : List UInt8) (hne : h ≠ [])
    (hh : ∀ b ∈ h, isScreenNameUsable (b.toNat : Int) = true)
    (hr : r = [] ∨ isScreenNameUsable (decodeRune r).1 = false) :
    (∃ tail : List (Int × Attribute × Attribute),
      (drawTextWithAutoNotice K (0x40 :: h ++ r) x y fg bg).map Cell.paint
        = (0x40, fg, K.ColorLowlight)
            :: h.map (fun b => ((b.toNat : Int), fg, K.ColorLowlight)) ++ tail
      ∧ (r = [] → tail = [])
      ∧ (r ≠ [] → tail.head? = some ((decodeRune r).1, fg, bg)))
    ∧ (drawTextWithAutoNotice K (ascii "@ab cd") x y fg bg).map Cell.paint
        = [(0x40, fg, K.ColorLowlight), (0x61, fg, K.ColorLowlight),
           (0x62, fg, K.ColorLowlight), (0x20, fg, bg), (0x63, fg, bg), (0x64, fg, bg)] := by
  constructor
  · have hascii : ∀ b ∈ h, b.toNat < 0x80 := fun b hb => usable_byte_ascii b (hh b hb)
    have hrunes : runes (0x40 :: h ++ r)
        = 0x40 :: (h.map (fun b => (b.toNat : Int)) ++ runes r) := by
      rw [List.cons_append, runes_cons_ascii 0x40 _ (by decide), runes_ascii_append h r hascii]
      rfl
    have husable : ∀ c ∈ h.map (fun b => (b.toNat : Int)), isScreenNameUsable c = true := by
      intro c hc
      obtain ⟨b, hb, rfl⟩ := List.mem_map.mp hc
      exact hh b hb
    obtain ⟨a, q, rfl⟩ := List.exists_cons_of_ne_nil hne
    obtain ⟨st2, h1, h2, h3, h4, h5⟩ :=
      drawRunes_mention_run K x y fg bg (runes r) ((a :: q).map (fun b => (b.toNat : Int)))
        ⟨0 + K.RuneWidth 0x40, fg, K.ColorLowlight, false, true⟩ rfl husable
    refine ⟨(drawRunes K x y fg bg (runes r) st2).map Cell.paint, ?_, ?_, ?_⟩
    · rw [drawTextWithAutoNotice_eq, hrunes, drawRunes]
      simp only [List.map_cons, List.cons_append,
        scanStepR_mention_start K fg bg (a.toNat : Int) _ (hh a (by simp))]
      simp only [List.map_cons, List.cons_append] at h5
      rw [h5]
      simp [Cell.paint, List.map_map]
    · rintro rfl
      simp [runes_nil, drawRunes]
    · intro hrne
      have hnot : isScreenNameUsable (decodeRune r).1 = false := by
        rcases hr with hr | hr
        · exact absurd hr hrne
        · exact hr
      rw [runes_step r hrne, drawRunes]
      simp only [scanStepR_mention_end K fg bg _ _ st2 h3 hnot, List.map_cons, List.head?_cons]
      simp only [Cell.paint, h1]
  · rw [drawTextWithAutoNotice_eq]
    have : runes (ascii "@ab cd") = [0x40, 0x61, 0x62, 0x20, 0x63, 0x64] := by decide
    rw [this]
    simp [drawRunes, scanStepR, isScreenNameUsable, Cell.paint, RuneError]

/-- An instance: the handle `ab` followed by ` cd`. -/
theorem mention_span_drawn_witness :
    (ascii "ab" ≠ []
      ∧ (∀ b ∈ ascii "ab", isScreenNameUsable (b.toNat : Int) = true)
      ∧ (ascii " cd" = [] ∨ isScreenNameUsable (decodeRune (ascii " cd")).1 = false))
    ∧ ∃ tail : List (Int × Attribute × Attribute),
      (drawTextWithAutoNotice exampleTerm (0x40 :: ascii "ab" ++ ascii " cd") 0 0 1 2).map
          Cell.paint
        = (0x40, 1, 9) :: (ascii "ab").map (fun b => ((b.toNat : Int), 1, 9)) ++ tail
      ∧ (ascii " cd" = [] → tail = [])
      ∧ (ascii " cd" ≠ [] → tail.head? = some ((decodeRune (ascii " cd")).1, 1, 2)) :=
  ⟨⟨by decide, by decide, by decide⟩,
    (mention_span_drawn exampleTerm 0 0 1 2 (ascii "ab") (ascii " cd")
      (by decide) (by decide) (by decide)).1⟩


/-- C3: on `"#" ++ w ++ " " ++ r`, with `w` a non-empty word without a space rune
and `r` not starting with `#`, the `#` and every rune of `w` are drawn with
foreground `ColorBlue` on the caller's background, and the space after `w` is
drawn with the caller's foreground; on `"#tag here"` the cells of `#tag` are
foreground-highlighted and those of `" here"` are not. -/
theorem hashtag_span_drawn (K : Term) (x y : Int) (fg bg : Attribute)
    (w r : List UInt8) (hne : w ≠ []) (hw : (0x20 : Int) ∉ runes w)
    (hr : (decodeRune r).1 ≠ 0x23) :
    (∃ tail : List (Int × Attribute × Attribute),
      (drawTextWithAutoNotice K (0x23 :: w ++ 0x20 :: r) x y fg bg).map Cell.paint
        = (0x23, K.ColorBlue, bg) :: (runes w).map (fun c => (c, K.ColorBlue, bg))
            ++ (0x20, fg, bg) :: tail)
    ∧ (drawTextWithAutoNotice K (ascii "#tag here") x y fg bg).map Cell.paint
        = [(0x23, K.ColorBlue, bg), (0x74, K.ColorBlue, bg), (0x61, K.ColorBlue, bg),
           (0x67, K.ColorBlue, bg), (0x20, fg, bg), (0x68, fg, bg), (0x65, fg, bg),
           (0x72, fg, bg), (0x65, fg, bg)] := by
  constructor
  · have hrunes : runes (0x23 :: w ++ 0x20 :: r) = 0x23 :: (runes w ++ 0x20 :: runes r) := by
      rw [List.cons_append, runes_cons_ascii 0x23 _ (by decide),
        runes_append_ascii 0x20 r (by decide) w.length w (le_refl _),
        runes_cons_ascii 0x20 r (by decide)]
      rfl
    have hwne : runes w ≠ [] := fun h => hne ((runes_eq_nil w).mp h)
    obtain ⟨c, q, hcq⟩ := List.exists_cons_of_ne_nil hwne
    have hc : c ≠ 0x20 := by
      rintro rfl
      exact hw (by simp [hcq])
    have hr2 : (runes r).headD RuneError ≠ 0x23 := by
      rw [← decodeRune_fst]; exact hr
    obtain ⟨tail, ht⟩ := drawRunes_hashtag_word K x y fg bg (runes r) hr2 (runes w)
      ⟨0 + K.RuneWidth 0x23, K.ColorBlue, bg, true, false⟩ rfl rfl hw
    refine ⟨tail, ?_⟩
    rw [drawTextWithAutoNotice_eq, hrunes, drawRunes]
    have hstart : scanStepR K fg bg 0x23 (runes w ++ 0x20 :: runes r) ⟨0, fg, bg, false, false⟩
        = ⟨0, K.ColorBlue, bg, true, false⟩ := by
      rw [hcq, List.cons_append]
      exact scanStepR_hashtag_start K fg bg c _ hc
    simp only [hstart, List.map_cons]
    rw [ht]
    rfl
  · rw [drawTextWithAutoNotice_eq]
    have : runes (ascii "#tag here")
        = [0x23, 0x74, 0x61, 0x67, 0x20, 0x68, 0x65, 0x72, 0x65] := by decide
    rw [this]
    simp [drawRunes, scanStepR, isScreenNameUsable, Cell.paint, RuneError]

/-- An instance: the word `tag` followed by a space and `here`. -/
theorem hashtag_span_drawn_witness :
    (ascii "tag" ≠ [] ∧ (0x20 : Int) ∉ runes (ascii "tag")
      ∧ (decodeRune (ascii "here")).1 ≠ 0x23)
    ∧ ∃ tail : List (Int × Attribute × Attribute),
      (drawTextWithAutoNotice exampleTerm (0x23 :: ascii "tag" ++ 0x20 :: ascii "here")
          0 0 1 2).map Cell.paint
        = (0x23, 5, 2) :: (runes (ascii "tag")).map (fun c => (c, 5, 2))
            ++ (0x20, 1, 2) :: tail :=
  ⟨⟨by decide, by decide, by decide⟩,
    (hashtag_span_drawn exampleTerm 0 0 1 2 (ascii "tag") (ascii "here")
      (by decide) (by decide) (by decide)).1⟩

/-- C4: on a hashtag chain `#w1 #w2 ... #wk` of `k ≥ 1` non-empty words without
a space rune, every rune, each separating space included, is drawn with
foreground `ColorBlue`; on `"#a #b"` all five cells are foreground-highlighted. -/
theorem hashtag_chain_all_blue (K : Term) (x y : Int) (fg bg : Attribute)
    (ws : List (List UInt8)) (hne : ws ≠ [])
    (hws : ∀ w ∈ ws, w ≠ [] ∧ (0x20 : Int) ∉ runes w) :
    (drawTextWithAutoNotice K (hashtagChain ws) x y fg bg).map Cell.paint
      = (runes (hashtagChain ws)).map (fun c => (c, K.ColorBlue, bg))
    ∧ (drawTextWithAutoNotice K (ascii "#a #b") x y fg bg).map Cell.paint
        = [(0x23, K.ColorBlue, bg), (0x61, K.ColorBlue, bg), (0x20, K.ColorBlue, bg),
           (0x23, K.ColorBlue, bg), (0x62, K.ColorBlue, bg)] := by
  constructor
  · obtain ⟨w, vs, rfl⟩ := List.exists_cons_of_ne_nil hne
    have hsth := SpaceThenHash_chain (w :: vs) hws
    have hw := hws w (by simp)
    have hwne : runes w ≠ [] := fun h => hw.1 ((runes_eq_nil w).mp h)
    obtain ⟨c, q, hcq⟩ := List.exists_cons_of_ne_nil hwne
    have hc : c ≠ 0x20 := by
      rintro rfl
      exact hw.2 (by simp [hcq])
    rw [drawTextWithAutoNotice_eq]
    rw [runes_chain_cons] at hsth ⊢
    rw [drawRunes]
    have hstart : scanStepR K fg bg 0x23
        (runes w ++ (if vs = [] then [] else 0x20 :: runes (hashtagChain vs)))
        ⟨0, fg, bg, false, false⟩ = ⟨0, K.ColorBlue, bg, true, false⟩ := by
      rw [hcq, List.cons_append]
      exact scanStepR_hashtag_start K fg bg c _ hc
    simp only [hstart, List.map_cons]
    rw [drawRunes_hashtag_run K x y fg bg _
      ⟨0 + K.RuneWidth 0x23, K.ColorBlue, bg, true, false⟩ rfl rfl hsth.2]
    rfl
  · rw [drawTextWithAutoNotice_eq]
    have : runes (ascii "#a #b") = [0x23, 0x61, 0x20, 0x23, 0x62] := by decide
    rw [this]
    simp [drawRunes, scanStepR, isScreenNameUsable, Cell.paint, RuneError]

/-- An instance: the chain of the words `a` and `b`, which is `#a #b`. -/
theorem hashtag_chain_all_blue_witness :
    ([ascii "a", ascii "b"] ≠ []
      ∧ ∀ w ∈ [ascii "a", ascii "b"], w ≠ [] ∧ (0x20 : Int) ∉ runes w)
    ∧ hashtagChain [ascii "a", ascii "b"] = ascii "#a #b"
    ∧ (drawTextWithAutoNotice exampleTerm (hashtagChain [ascii "a", ascii "b"]) 0 0 1 2).map
          Cell.paint
        = (runes (hashtagChain [ascii "a", ascii "b"])).map (fun c => (c, 5, 2)) :=
  ⟨⟨by decide, by decide⟩, by decide,
    (hashtag_chain_all_blue exampleTerm 0 0 1 2 [ascii "a", ascii "b"]
      (by decide) (by decide)).1⟩

/-! ## Claims about `openMedia` -/

/-- C5: the final status is decided by the failure count `f` and the URL count
`n` alone, first matching case winning: empty for `f = 0`, the singular message
for `f = 1`, the "all" message for `f = n`, the "some" message otherwise; one
failing URL gives the singular message, and `n = 4` gives singular / all / some
for `f = 1 / 4 / 2`.  The status `openMedia` ends with is this function of the
`receiveErrors` it reads. -/
theorem final_status_cases (f n : Nat) (E : Env) (urls fs0 : List String)
    (sched during : List Act) :
    finalStatus f n
      = (if f = 0 then ""
         else if f = 1 then "Err:media downloading was failed"
         else if f = n then "Err:all of media downloading were failed"
         else "Err:some of media downloading were failed")
    ∧ finalStatus 1 1 = "Err:media downloading was failed"
    ∧ finalStatus 1 4 = "Err:media downloading was failed"
    ∧ finalStatus 4 4 = "Err:all of media downloading were failed"
    ∧ finalStatus 2 4 = "Err:some of media downloading were failed"
    ∧ (openMedia E urls fs0 sched during).map (fun o => o.status)
        = (openMedia E urls fs0 sched during).map
            (fun o => finalStatus o.final.coll.receiveErrors urls.length) := by
  refine ⟨?_, by decide, by decide, by decide, by decide, ?_⟩
  · unfold finalStatus
    by_cases h0 : f = 0
    · simp [h0]
    · have : f > 0 := Nat.pos_of_ne_zero h0
      simp [h0, this]
  · unfold openMedia
    simp only []
    split_ifs <;> rfl

/-! ### The collector -/

/-- The collector does not leave its loop before it has taken `n` values. -/
theorem collector_not_exited_of_lt (n : Nat) : ∀ (msgs : List Int) (c : Collector),
    c.exited = false → c.count + msgs.length < n → (collector n msgs c).exited = false := by
  intro msgs
  induction msgs with
  | nil => intro c hc _; exact hc
  | cons m rest ih =>
    intro c hc hlt
    simp only [List.length_cons] at hlt
    simp only [collector, hc, Bool.false_eq_true, if_false]
    apply ih
    · unfold collectorStep
      split_ifs
      · exact hc
      · simp; omega
    · unfold collectorStep
      split_ifs
      · simp only; omega
      · simp only; omega

/-- The collector leaves its loop on the `n`-th value exactly when all `n` values
are successes (and `n ≥ 1`). -/
theorem collector_exited_iff (n : Nat) : ∀ (msgs : List Int) (c : Collector),
    c.exited = false → c.count + c.receiveErrors + msgs.length = n →
    ((collector n msgs c).exited = true
      ↔ c.receiveErrors = 0 ∧ (∀ m ∈ msgs, m ≠ -1) ∧ msgs ≠ []) := by
  intro msgs
  induction msgs with
  | nil => intro c hc _; simp [collector, hc]
  | cons m rest ih =>
    intro c hc hlen
    simp only [List.length_cons] at hlen
    simp only [collector, hc, Bool.false_eq_true, if_false]
    by_cases hm : m = -1
    · have hstep : collectorStep n c m = { c with receiveErrors := c.receiveErrors + 1 } := by
        simp [collectorStep, hm]
      rw [hstep, ih { c with receiveErrors := c.receiveErrors + 1 } hc (by simp only; omega)]
      simp [hm]
    · have hstep : collectorStep n c m = { c with
          count := c.count + 1
          published := c.published ++ [progressMessage (c.count + 1) n]
          exited := decide (c.count + 1 = n) } := by
        simp [collectorStep, hm]
      rw [hstep]
      by_cases hex : c.count + 1 = n
      · have hrest : rest = [] := List.length_eq_zero.mp (by omega)
        have hre : c.receiveErrors = 0 := by omega
        subst hrest
        simp [collector, hex, hre, hm]
      · rw [ih { c with
            count := c.count + 1
            published := c.published ++ [progressMessage (c.count + 1) n]
            exited := decide (c.count + 1 = n) } (by simp [hex]) (by simp only; omega)]
        simp only [List.mem_cons, forall_eq_or_imp, ne_eq, hm, not_false_eq_true, true_and,
          reduceCtorEq, and_true]
        constructor
        · rintro ⟨h1, h2, _⟩; exact ⟨h1, h2⟩
        · rintro ⟨h1, h2⟩
          refine ⟨h1, h2, ?_⟩
          intro h
          subst h
          simp at hlen; omega

/-- C6 (evaluation at the failing input): with one URL whose task fails, the
collector has taken the only outcome there will be and is still in its loop. -/
theorem collector_stuck_after_failure :
    collector 1 [-1] Collector.start = ⟨0, 1, [], false⟩
    ∧ drained 1 [-1] Collector.start = 1
    ∧ collector 0 [] Collector.start = ⟨0, 0, [], false⟩ := by
  decide


/-! ### The reverse loop -/

theorem openLoop_paths (fs fileps : List String) : ∀ k, k ≤ fileps.length →
    (openLoop fs fileps k).map Prod.snd
      = ((fileps.take k).reverse).filter (fun p => decide (p ∈ fs)) := by
  intro k
  induction k with
  | zero => intro _; simp [openLoop]
  | succ k ih =>
    intro hk
    have hlt : k < fileps.length := hk
    have hget : fileps[k]? = some fileps[k] := List.getElem?_eq_getElem hlt
    rw [List.take_succ, hget]
    simp only [openLoop, hget, Option.toList_some, List.reverse_append, List.reverse_cons,
      List.reverse_nil, List.nil_append, List.singleton_append, List.map_append,
      List.filter_cons]
    rw [ih (Nat.le_of_lt hlt)]
    split_ifs <;> simp_all

theorem openLoop_mem (fs fileps : List String) : ∀ k (i : Nat) (p : String),
    (i, p) ∈ openLoop fs fileps k → i < k ∧ fileps[i]? = some p ∧ p ∈ fs := by
  intro k
  induction k with
  | zero => intro i p h; simp [openLoop] at h
  | succ k ih =>
    intro i p h
    unfold openLoop at h
    cases hget : fileps[k]? with
    | none =>
      rw [hget] at h
      obtain ⟨h1, h2⟩ := ih i p h
      exact ⟨by omega, h2⟩
    | some path =>
      rw [hget] at h
      simp only [List.mem_append] at h
      rcases h with h | h
      · split_ifs at h with hin
        · simp only [List.mem_singleton, Prod.mk.injEq] at h
          obtain ⟨rfl, rfl⟩ := h
          exact ⟨by omega, hget, hin⟩
        · simp at h
      · obtain ⟨h1, h2⟩ := ih i p h
        exact ⟨by omega, h2⟩

theorem openLoop_mem_of (fs fileps : List String) : ∀ k (i : Nat) (p : String),
    i < k → fileps[i]? = some p → p ∈ fs → (i, p) ∈ openLoop fs fileps k := by
  intro k
  induction k with
  | zero => intro i p h; exact absurd h (Nat.not_lt_zero i)
  | succ k ih =>
    intro i p hik hget hin
    unfold openLoop
    by_cases hk : i = k
    · subst hk
      simp [hget, hin]
    · have hrec := ih i p (by omega) hget hin
      cases fileps[k]? with
      | none => exact hrec
      | some path => exact List.mem_append_right _ hrec

theorem openLoop_decreasing (fs fileps : List String) : ∀ k,
    ((openLoop fs fileps k).map Prod.fst).Pairwise (fun a b => b < a) := by
  intro k
  induction k with
  | zero => simp [openLoop]
  | succ k ih =>
    have hsmall : ∀ j ∈ (openLoop fs fileps k).map Prod.fst, j < k := by
      intro j hj
      obtain ⟨⟨i, p⟩, hip, rfl⟩ := List.mem_map.mp hj
      exact (openLoop_mem fs fileps k i p hip).1
    unfold openLoop
    cases hget : fileps[k]? with
    | none => exact ih
    | some path =>
      simp only []
      split_ifs
      · simp only [List.singleton_append, List.map_cons, List.pairwise_cons]
        exact ⟨hsmall, ih⟩
      · simpa using ih

/-! ### Runs of the download tasks -/

theorem stepAct_of_allDone (E : Env) (fileps : List String) (a : Act) (r : Run)
    (h : r.tasks.all Phase.isDone = true) :
    (stepAct E fileps a r).fs = r.fs ∧ (stepAct E fileps a r).tasks = r.tasks := by
  cases a with
  | task i =>
    cases hph : r.tasks[i]? with
    | none => simp [stepAct, hph]
    | some ph =>
      cases hp : fileps[i]? with
      | none => simp [stepAct, hph, hp]
      | some path =>
        have hmem : ph ∈ r.tasks := List.mem_iff_getElem?.mpr ⟨i, hph⟩
        have hd := List.all_eq_true.mp h ph hmem
        cases ph <;> simp [Phase.isDone] at hd
        simp [stepAct, hph, hp, stepTask]
  | collect =>
    unfold stepAct
    split_ifs
    · simp
    · cases r.mes <;> simp

theorem runSched_of_allDone (E : Env) (fileps : List String) : ∀ (sched : List Act) (r : Run),
    r.tasks.all Phase.isDone = true →
    (runSched E fileps sched r).fs = r.fs ∧ (runSched E fileps sched r).tasks = r.tasks := by
  intro sched
  induction sched with
  | nil => intro r _; exact ⟨rfl, rfl⟩
  | cons a rest ih =>
    intro r h
    obtain ⟨h1, h2⟩ := stepAct_of_allDone E fileps a r h
    obtain ⟨h3, h4⟩ := ih (stepAct E fileps a r) (by rw [h2]; exact h)
    exact ⟨by rw [runSched, h3, h1], by rw [runSched, h4, h2]⟩

theorem stepAct_task_length (E : Env) (fileps : List String) (i : Nat) (r : Run) :
    (stepAct E fileps (.task i) r).tasks.length = r.tasks.length := by
  cases hph : r.tasks[i]? with
  | none => simp [stepAct, hph]
  | some ph =>
    cases hp : fileps[i]? with
    | none => simp [stepAct, hph, hp]
    | some path =>
      simp only [stepAct, hph, hp]
      cases ph <;> simp only [stepTask, Run.finish, Run.goto] <;> (try split_ifs) <;> simp

theorem stepAct_task_other (E : Env) (fileps : List String) (i k : Nat) (r : Run)
    (hk : k ≠ i) : (stepAct E fileps (.task i) r).tasks[k]? = r.tasks[k]? := by
  cases hph : r.tasks[i]? with
  | none => simp [stepAct, hph]
  | some ph =>
    cases hp : fileps[i]? with
    | none => simp [stepAct, hph, hp]
    | some path =>
      simp only [stepAct, hph, hp]
      cases ph <;> simp only [stepTask, Run.finish, Run.goto] <;> (try split_ifs) <;>
        simp [List.getElem?_set_ne (Ne.symm hk)]

theorem stepAct_task_rank (E : Env) (fileps : List String) (i : Nat) (r : Run)
    (ph : Phase) (path : String) (hph : r.tasks[i]? = some ph) (hp : fileps[i]? = some path) :
    ∃ ph2, (stepAct E fileps (.task i) r).tasks[i]? = some ph2 ∧ ph2.rank ≤ ph.rank - 1 := by
  have hlen : i < r.tasks.length := by
    by_contra hge
    rw [List.getElem?_eq_none (by omega)] at hph
    exact absurd hph (by simp)
  simp only [stepAct, hph, hp]
  cases ph <;> simp only [stepTask, Run.finish, Run.goto] <;> (try split_ifs) <;>
    simp [List.getElem?_set_self hlen, Phase.rank, hph]

theorem replicate_task_done (E : Env) (fileps : List String) (i : Nat) (path : String)
    (hp : fileps[i]? = some path) : ∀ (m : Nat) (r : Run) (ph : Phase),
    r.tasks[i]? = some ph → ph.rank ≤ m →
    ∃ ph2, (runSched E fileps (List.replicate m (Act.task i)) r).tasks[i]? = some ph2
      ∧ ph2.isDone = true := by
  intro m
  induction m with
  | zero =>
    intro r ph hph hr
    refine ⟨ph, by simpa [runSched] using hph, ?_⟩
    cases ph <;> simp [Phase.rank] at hr
    rfl
  | succ m ih =>
    intro r ph hph hr
    obtain ⟨ph2, h1, h2⟩ := stepAct_task_rank E fileps i r ph path hph hp
    simp only [List.replicate_succ, runSched]
    exact ih _ ph2 h1 (by omega)

theorem replicate_task_other (E : Env) (fileps : List String) (i k : Nat) (hk : k ≠ i) :
    ∀ (m : Nat) (r : Run),
    (runSched E fileps (List.replicate m (Act.task i)) r).tasks[k]? = r.tasks[k]? := by
  intro m
  induction m with
  | zero => intro r; rfl
  | succ m ih =>
    intro r
    simp only [List.replicate_succ, runSched]
    rw [ih, stepAct_task_other E fileps i k r hk]

theorem replicate_task_length (E : Env) (fileps : List String) (i : Nat) :
    ∀ (m : Nat) (r : Run),
    (runSched E fileps (List.replicate m (Act.task i)) r).tasks.length = r.tasks.length := by
  intro m
  induction m with
  | zero => intro r; rfl
  | succ m ih =>
    intro r
    simp only [List.replicate_succ, runSched]
    rw [ih, stepAct_task_length]

theorem runSched_append (E : Env) (fileps : List String) : ∀ (s1 s2 : List Act) (r : Run),
    runSched E fileps (s1 ++ s2) r = runSched E fileps s2 (runSched E fileps s1 r) := by
  intro s1
  induction s1 with
  | nil => intro s2 r; rfl
  | cons a rest ih =>
    intro s2 r
    rw [List.cons_append, runSched, runSched, ih]

theorem phase_rank_le (ph : Phase) : ph.rank ≤ 5 := by
  cases ph <;> simp [Phase.rank]

theorem sequential_done (E : Env) (fileps : List String) : ∀ (n : Nat) (r : Run),
    n ≤ r.tasks.length → r.tasks.length = fileps.length →
    (runSched E fileps (sequential n) r).tasks.length = r.tasks.length
    ∧ (∀ k, k < n → ∃ ph, (runSched E fileps (sequential n) r).tasks[k]? = some ph
        ∧ ph.isDone = true) := by
  intro n
  induction n with
  | zero => intro r _ _; exact ⟨rfl, fun k hk => absurd hk (Nat.not_lt_zero k)⟩
  | succ n ih =>
    intro r hn hlen
    obtain ⟨h1, h2⟩ := ih r (by omega) hlen
    have hseq : sequential (n + 1) = sequential n ++ List.replicate 5 (Act.task n) := by
      simp [sequential, List.range_succ]
    rw [hseq, runSched_append]
    have hnlen : n < (runSched E fileps (sequential n) r).tasks.length := by omega
    have hpn : fileps[n]? = some fileps[n] := List.getElem?_eq_getElem (by omega)
    have htn := List.getElem?_eq_getElem hnlen
    refine ⟨by rw [replicate_task_length, h1], ?_⟩
    intro k hk
    by_cases hkn : k = n
    · subst hkn
      exact replicate_task_done E fileps k _ hpn 5 _ _ htn (phase_rank_le _)
    · rw [replicate_task_other E fileps n k hkn]
      exact h2 k (by omega)

/-- After the sequential schedule every task has finished. -/
theorem sequential_allDone (E : Env) (fileps : List String) (r : Run)
    (hlen : r.tasks.length = fileps.length) :
    (runSched E fileps (sequential r.tasks.length) r).tasks.all Phase.isDone = true := by
  obtain ⟨h1, h2⟩ := sequential_done E fileps r.tasks.length r (le_refl _) hlen
  rw [List.all_eq_true]
  intro ph hph
  obtain ⟨k, hk⟩ := List.mem_iff_getElem?.mp hph
  have hklen : k < r.tasks.length := by
    by_contra hge
    rw [List.getElem?_eq_none (by omega)] at hk
    exact absurd hk (by simp)
  obtain ⟨ph2, h3, h4⟩ := h2 k hklen
  rw [hk] at h3
  simp only [Option.some.injEq] at h3
  subst h3
  exact h4

/-- Run one after the other, the tasks all finish and `openMedia` gets past
`wg.Wait()`. -/
theorem openMedia_sequential_isSome (E : Env) (urls fs0 : List String)
    (during : List Act) :
    (openMedia E urls fs0 (sequential urls.length) during).isSome = true := by
  have h := sequential_allDone E (localPaths E urls)
    ⟨fs0, urls.map (fun _ => Phase.statTarget), [], [], Collector.start⟩
    (by simp [localPaths])
  simp only [List.length_map] at h
  unfold openMedia
  simp only [h, if_true, Option.isSome_some]

/-- C8: the `openCommand` calls of `openMedia` are the computed local paths (one
per URL, in request order), reversed and restricted to the paths that exist once
every download task has finished; the URL indices of the calls decrease. -/
theorem open_calls_reverse_order (E : Env) (urls fs0 : List String)
    (sched during : List Act) (o : Opened)
    (h : openMedia E urls fs0 sched during = some o) :
    o.opens.map Prod.snd
        = ((localPaths E urls).reverse).filter (fun p => decide (p ∈ o.final.fs))
    ∧ (localPaths E urls).length = urls.length
    ∧ o.final.tasks.all Phase.isDone = true
    ∧ (o.opens.map Prod.fst).Pairwise (fun a b => b < a)
    ∧ (∀ i p, (i, p) ∈ o.opens → (localPaths E urls)[i]? = some p)
    ∧ (openMedia E urls fs0 (sequential urls.length) during).isSome = true := by
  unfold openMedia at h
  simp only [] at h
  split_ifs at h with hdone
  simp only [Option.some.injEq] at h
  subst h
  obtain ⟨hfs, htasks⟩ := runSched_of_allDone E (localPaths E urls) during _ hdone
  refine ⟨?_, by simp [localPaths], ?_, openLoop_decreasing _ _ _, ?_,
    openMedia_sequential_isSome E urls fs0 during⟩
  · simp only [hfs]
    rw [openLoop_paths _ _ _ (le_refl _), List.take_length]
  · simp only [htasks]; exact hdone
  · intro i p hip
    exact (openLoop_mem _ _ _ i p hip).2.1

/-- A statement of a task keeps `TargetsFree` when the targets are pairwise
different and none is the temp directory. -/
theorem stepTask_targetsFree (E : Env) (fileps : List String) (j : Nat) (pj : String)
    (phj : Phase) (r : Run) (hnodup : fileps.Nodup) (htmp : E.tempdir ∉ fileps)
    (hj : r.tasks[j]? = some phj) (hpj : fileps[j]? = some pj)
    (hinv : TargetsFree fileps r) : TargetsFree fileps (stepTask E j pj phj r) := by
  have hjlen : j < r.tasks.length := by
    by_contra hge
    rw [List.getElem?_eq_none (by omega)] at hj
    exact absurd hj (by simp)
  have hjlen2 : j < fileps.length := by
    by_contra hge
    rw [List.getElem?_eq_none (by omega)] at hpj
    exact absurd hpj (by simp)
  have hpjtmp : pj ≠ E.tempdir := by
    intro h
    exact htmp (h ▸ List.mem_iff_getElem?.mpr ⟨j, hpj⟩)
  have hother : ∀ i path, i ≠ j → fileps[i]? = some path → path ≠ pj ∧ path ≠ E.tempdir := by
    intro i path hij hp
    constructor
    · intro h
      subst h
      exact hij ((List.getElem?_inj hjlen2 hnodup (hpj.trans hp.symm)).symm)
    · intro h
      exact htmp (h ▸ List.mem_iff_getElem?.mpr ⟨i, hp⟩)
  have hown := hinv j phj pj hj hpj
  intro i ph path hi hp hne1 hne2
  by_cases hij : i = j
  · subst hij
    rw [hpj] at hp
    simp only [Option.some.injEq] at hp
    subst hp
    cases phj <;>
      simp only [stepTask, Run.finish, Run.goto] at hi ⊢ <;>
      (try split_ifs at hi ⊢) <;>
      (try simp only [List.getElem?_set_self hjlen, Option.some.injEq] at hi) <;>
      (try subst hi) <;>
      simp_all
  · obtain ⟨hp1, hp2⟩ := hother i path hij hp
    have hold : r.tasks[i]? = some ph → path ∉ r.fs := fun h => hinv i ph path h hp hne1 hne2
    cases phj <;>
      simp only [stepTask, Run.finish, Run.goto] at hi ⊢ <;>
      (try split_ifs at hi ⊢) <;>
      (try simp only [List.getElem?_set_ne (Ne.symm hij)] at hi) <;>
      simp_all

theorem runSched_targetsFree (E : Env) (fileps : List String) (hnodup : fileps.Nodup)
    (htmp : E.tempdir ∉ fileps) : ∀ (sched : List Act) (r : Run),
    TargetsFree fileps r → TargetsFree fileps (runSched E fileps sched r) := by
  intro sched
  induction sched with
  | nil => intro r h; exact h
  | cons a rest ih =>
    intro r h
    apply ih
    cases a with
    | task j =>
      cases hph : r.tasks[j]? with
      | none => simpa [stepAct, hph] using h
      | some phj =>
        cases hp : fileps[j]? with
        | none => simpa [stepAct, hph, hp] using h
        | some pj =>
          simp only [stepAct, hph, hp]
          exact stepTask_targetsFree E fileps j pj phj r hnodup htmp hph hp h
    | collect =>
      unfold stepAct
      split_ifs
      · exact h
      · cases hm : r.mes with
        | nil => exact h
        | cons m ms => exact h

/-- C7 (counterexample): two requests for the same URL whose tasks both pass the
first `os.Stat` before either creates the file: the second task reports failure
(`-1`), and `openCommand` is still called for it. -/
theorem failed_download_opened :
    (openMedia exampleEnv ["http://h/a.jpg", "http://h/a.jpg"] ["/tmp/ringot"]
        [.task 0, .task 1, .task 0, .task 1, .task 0, .task 1, .task 0, .task 1] []).map
      (fun o => (o.tasks, o.opens))
      = some ([.done 1, .done (-1)], [(1, "/tmp/ringot/a.jpg"), (0, "/tmp/ringot/a.jpg")]) := by
  decide

/-- C7 (amended): in every run, `openCommand` is called for a URL exactly when a
path exists at its local path once the tasks have finished, whatever the task of
that URL reported; and when the local paths of the URLs are pairwise different
and none is the temp directory itself, it is not called for a URL whose download
task reported failure (`-1`). -/
theorem failed_download_not_opened (E : Env) (urls fs0 : List String)
    (sched during : List Act) (o : Opened)
    (h : openMedia E urls fs0 sched during = some o) :
    (∀ j p, (j, p) ∈ o.opens ↔ (localPaths E urls)[j]? = some p ∧ p ∈ o.final.fs)
    ∧ ((localPaths E urls).Nodup → E.tempdir ∉ localPaths E urls →
        ∀ i, o.tasks[i]? = some (Phase.done (-1)) → ∀ p, (i, p) ∉ o.opens) := by
  unfold openMedia at h
  simp only [] at h
  split_ifs at h with hdone
  simp only [Option.some.injEq] at h
  subst h
  obtain ⟨hfs, _⟩ := runSched_of_allDone E (localPaths E urls) during _ hdone
  constructor
  · intro j p
    simp only [hfs]
    constructor
    · intro hjp
      exact (openLoop_mem _ _ _ j p hjp).2
    · rintro ⟨hget, hin⟩
      have hj : j < (localPaths E urls).length := by
        by_contra hge
        rw [List.getElem?_eq_none (by omega)] at hget
        exact absurd hget (by simp)
      exact openLoop_mem_of _ _ _ j p hj hget hin
  · intro hnodup htmp i hfail p hip
    obtain ⟨_, hget, hin⟩ := openLoop_mem _ _ _ i p hip
    have hstart : TargetsFree (localPaths E urls)
        ⟨fs0, urls.map (fun _ => Phase.statTarget), [], [], Collector.start⟩ := by
      intro k ph path hk _ hne _
      simp only [List.getElem?_map] at hk
      cases hu : urls[k]? with
      | none => simp [hu] at hk
      | some u =>
        simp only [hu, Option.map_some', Option.some.injEq] at hk
        exact absurd hk.symm hne
    have hfree := runSched_targetsFree E _ hnodup htmp sched _ hstart
    exact hfree i _ p hfail hget (by simp) (by simp) hin

/-- Two instances: two different URLs, the download of the second fails, and only
the first is opened; and the same URL twice with both tasks past the first
`os.Stat`, where the path exists at the end and both requests are opened. -/
theorem failed_download_not_opened_witness :
    (∃ o : Opened,
      openMedia exampleEnvFail ["http://h/a.jpg", "http://h/b.jpg"] [] (sequential 2) []
        = some o
      ∧ (localPaths exampleEnvFail ["http://h/a.jpg", "http://h/b.jpg"]).Nodup
      ∧ exampleEnvFail.tempdir ∉ localPaths exampleEnvFail ["http://h/a.jpg", "http://h/b.jpg"]
      ∧ o.tasks[1]? = some (Phase.done (-1))
      ∧ o.opens = [(0, "/tmp/ringot/a.jpg")]
      ∧ (∀ j p, (j, p) ∈ o.opens ↔
          (localPaths exampleEnvFail ["http://h/a.jpg", "http://h/b.jpg"])[j]? = some p
            ∧ p ∈ o.final.fs)
      ∧ ∀ p, (1, p) ∉ o.opens)
    ∧ ∃ o : Opened,
      openMedia exampleEnv ["http://h/a.jpg", "http://h/a.jpg"] ["/tmp/ringot"]
        [.task 0, .task 1, .task 0, .task 1, .task 0, .task 1, .task 0, .task 1] [] = some o
      ∧ o.tasks[1]? = some (Phase.done (-1))
      ∧ o.opens = [(1, "/tmp/ringot/a.jpg"), (0, "/tmp/ringot/a.jpg")]
      ∧ ∀ j p, (j, p) ∈ o.opens ↔
          (localPaths exampleEnv ["http://h/a.jpg", "http://h/a.jpg"])[j]? = some p
            ∧ p ∈ o.final.fs :=
  ⟨⟨_, rfl, by decide, by decide, by decide, by decide,
    (failed_download_not_opened exampleEnvFail ["http://h/a.jpg", "http://h/b.jpg"] []
      (sequential 2) [] _ rfl).1,
    (failed_download_not_opened exampleEnvFail ["http://h/a.jpg", "http://h/b.jpg"] []
      (sequential 2) [] _ rfl).2 (by decide) (by decide) 1 (by decide)⟩,
   ⟨_, rfl, by decide, by decide,
    (failed_download_not_opened exampleEnv ["http://h/a.jpg", "http://h/a.jpg"] ["/tmp/ringot"]
      [.task 0, .task 1, .task 0, .task 1, .task 0, .task 1, .task 0, .task 1] [] _ rfl).1⟩⟩

/-- An instance: three URLs, the download of the second fails, and the third is
opened before the first. -/
theorem open_calls_reverse_order_witness :
    ∃ o : Opened,
      openMedia exampleEnvFail ["http://h/a.jpg", "http://h/b.jpg", "http://h/c.jpg"] []
        (sequential 3) [] = some o
      ∧ o.opens = [(2, "/tmp/ringot/c.jpg"), (0, "/tmp/ringot/a.jpg")]
      ∧ o.opens.map Prod.snd
          = ((localPaths exampleEnvFail
                ["http://h/a.jpg", "http://h/b.jpg", "http://h/c.jpg"]).reverse).filter
              (fun p => decide (p ∈ o.final.fs)) :=
  ⟨_, rfl, by decide,
    (open_calls_reverse_order exampleEnvFail
      ["http://h/a.jpg", "http://h/b.jpg", "http://h/c.jpg"] [] (sequential 3) [] _ rfl).1⟩

/-! ## Claims about the lock -/

/-- C9: in sequential use (mutex free between calls, flag 0 or 1), `lock()`
returns `ErrAlreayLocking` exactly when the flag is 1, and then leaves the lock
unchanged; otherwise it returns `nil` and leaves the flag at 1.  On a zero-value
lock the first `lock()` returns `nil` and a second one returns
`ErrAlreayLocking`. -/
theorem lock_sequential (l : lock) (hm : l.mutex = false)
    (hflag : l.locking = 0 ∨ l.locking = 1) :
    (l.locking = 1 → l.lock = some (LockError.ErrAlreayLocking, l))
    ∧ (l.locking ≠ 1 → l.lock = some (LockError.nil, { l with locking := 1 }))
    ∧ ((∃ l2, l.lock = some (LockError.ErrAlreayLocking, l2)) ↔ l.locking = 1)
    ∧ lock.zero.lock = some (LockError.nil, ⟨false, 1⟩)
    ∧ (⟨false, 1⟩ : lock).lock = some (LockError.ErrAlreayLocking, ⟨false, 1⟩) := by
  refine ⟨?_, ?_, ?_, by decide, by decide⟩
  · intro h1
    simp [lock.lock, h1]
  · intro h1
    have h0 : l.locking = 0 := by
      rcases hflag with h | h
      · exact h
      · exact absurd h h1
    simp [lock.lock, h0, hm]
  · constructor
    · rintro ⟨l2, h⟩
      by_contra h1
      have h0 : l.locking = 0 := by
        rcases hflag with h | h
        · exact h
        · exact absurd h h1
      simp [lock.lock, h0, hm] at h
    · intro h1
      exact ⟨l, by simp [lock.lock, h1]⟩

/-- An instance: the zero-value lock. -/
theorem lock_sequential_witness :
    (lock.zero.mutex = false ∧ (lock.zero.locking = 0 ∨ lock.zero.locking = 1))
    ∧ (lock.zero.locking ≠ 1 →
        lock.zero.lock = some (LockError.nil, { lock.zero with locking := 1 })) :=
  ⟨⟨by decide, by decide⟩, (lock_sequential lock.zero (by decide) (by decide)).2.1⟩

/-! ## Claims about the label colours -/

theorem generate_keeps_entry (P : Palette) (m : ColorMap) (id k : Int) (v : Int)
    (hk : m k = some v) : (generateLabelColorByUserID P m id).2 k = some v := by
  unfold generateLabelColorByUserID
  cases hid : m id with
  | some val => simpa using hk
  | none =>
    have hne : k ≠ id := by
      rintro rfl
      rw [hid] at hk
      exact absurd hk (by simp)
    simp only []
    split_ifs
    · exact hk
    · simp [ColorMap.set, hne, hk]

theorem colorCalls_keeps_entry (P : Palette) (k : Int) (v : Int) :
    ∀ (ids : List Int) (m : ColorMap), m k = some v → colorCalls P ids m k = some v := by
  intro ids
  induction ids with
  | nil => intro m h; exact h
  | cons id rest ih =>
    intro m h
    exact ih _ (generate_keeps_entry P m id k v h)

theorem generate_of_empty (P : Palette) (m : ColorMap) (id : Int)
    (h : P.LabelColors.length = 0) : (generateLabelColorByUserID P m id).2 = m := by
  unfold generateLabelColorByUserID
  cases m id <;> simp [h]

theorem colorCalls_of_empty (P : Palette) (h : P.LabelColors.length = 0) :
    ∀ (ids : List Int) (m : ColorMap), colorCalls P ids m = m := by
  intro ids
  induction ids with
  | nil => intro m; rfl
  | cons id rest ih =>
    intro m
    rw [colorCalls, generate_of_empty P m id h, ih]

theorem generate_of_entry (P : Palette) (m : ColorMap) (id : Int) (v : Int)
    (h : m id = some v) : generateLabelColorByUserID P m id = (P.color v, m) := by
  simp [generateLabelColorByUserID, h]

/-- C10: two calls of `generateLabelColorByUserID` with the same id return the
same colour whatever calls happen in between; an entry of `LabelColorMap` is
never changed or removed by later calls; a call for an id that has an entry
returns `LabelColors` at the stored index, leaves the map alone and draws
nothing; and a first call for a new id returns a colour of the palette. -/
theorem label_color_stable (P : Palette) (m : ColorMap) (id : Int) (ids : List Int) :
    (generateLabelColorByUserID P
        (colorCalls P ids (generateLabelColorByUserID P m id).2) id).1
      = (generateLabelColorByUserID P m id).1
    ∧ (∀ k v, m k = some v → colorCalls P ids m k = some v)
    ∧ (∀ v, m id = some v → ∀ draw : Int → Nat → Int,
        generateLabelColorByUserID ⟨P.LabelColors, draw⟩ m id = (P.color v, m))
    ∧ (m id = none → P.LabelColors ≠ [] →
        (0 ≤ P.seededIntn id P.LabelColors.length
          ∧ P.seededIntn id P.LabelColors.length < P.LabelColors.length) →
        ∃ c, (generateLabelColorByUserID P m id).1 = some c ∧ c ∈ P.LabelColors) := by
  refine ⟨?_, fun k v h => colorCalls_keeps_entry P k v ids m h, ?_, ?_⟩
  · cases hid : m id with
    | some v =>
      have h1 := generate_of_entry P m id v hid
      have h2 := colorCalls_keeps_entry P id v ids m hid
      rw [h1]
      simp only []
      rw [generate_of_entry P _ id v h2]
    | none =>
      by_cases hlen : P.LabelColors.length = 0
      · have h1 : generateLabelColorByUserID P m id = (none, m) := by
          simp [generateLabelColorByUserID, hid, hlen]
        rw [h1]
        simp only []
        rw [colorCalls_of_empty P hlen, h1]
      · have h1 : generateLabelColorByUserID P m id
            = (P.color (P.seededIntn id P.LabelColors.length),
               m.set id (P.seededIntn id P.LabelColors.length)) := by
          simp [generateLabelColorByUserID, hid, hlen]
        have h2 := colorCalls_keeps_entry P id (P.seededIntn id P.LabelColors.length) ids
          (m.set id (P.seededIntn id P.LabelColors.length)) (by simp [ColorMap.set])
        rw [h1]
        simp only []
        rw [generate_of_entry P _ id _ h2]
  · intro v h draw
    exact generate_of_entry ⟨P.LabelColors, draw⟩ m id v h
  · intro hid hne hdraw
    have hlen : P.LabelColors.length ≠ 0 := fun h => hne (List.length_eq_zero.mp h)
    have h1 : generateLabelColorByUserID P m id
        = (P.color (P.seededIntn id P.LabelColors.length),
           m.set id (P.seededIntn id P.LabelColors.length)) := by
      simp [generateLabelColorByUserID, hid, hlen]
    rw [h1]
    have hlt : (P.seededIntn id P.LabelColors.length).toNat < P.LabelColors.length := by
      omega
    refine ⟨P.LabelColors[(P.seededIntn id P.LabelColors.length).toNat], ?_, ?_⟩
    · simp only [Palette.color]
      rw [if_neg (by omega), List.getElem?_eq_getElem hlt]
    · exact List.getElem_mem _

/-- An instance: id `7` on an empty map, with calls for `3`, `7` and `5` in between. -/
theorem label_color_stable_witness :
    ((fun _ => none : ColorMap) 7 = none ∧ examplePalette.LabelColors ≠ []
      ∧ (0 ≤ examplePalette.seededIntn 7 examplePalette.LabelColors.length
        ∧ examplePalette.seededIntn 7 examplePalette.LabelColors.length
            < examplePalette.LabelColors.length))
    ∧ ∃ c, (generateLabelColorByUserID examplePalette (fun _ => none) 7).1 = some c
        ∧ c ∈ examplePalette.LabelColors :=
  ⟨⟨rfl, by decide, by decide⟩,
    (label_color_stable examplePalette (fun _ => none) 7 [3, 7, 5]).2.2.2 rfl (by decide)
      (by decide)⟩

/-! ## Claims about `downloadMedia` -/

/-- Five steps of task `i` with nothing in between are one run of `downloadMedia`. -/
theorem stepTask_five_eq_downloadMedia (E : Env) (fileps : List String) (i : Nat)
    (path : String) (r : Run) (hi : r.tasks[i]? = some Phase.statTarget)
    (hp : fileps[i]? = some path) :
    ∃ m, (runSched E fileps (List.replicate 5 (Act.task i)) r).tasks
          = r.tasks.set i (Phase.done m)
      ∧ (runSched E fileps (List.replicate 5 (Act.task i)) r).fs
          = (downloadMedia E i path r.fs).fs
      ∧ (runSched E fileps (List.replicate 5 (Act.task i)) r).mes
          = r.mes ++ (downloadMedia E i path r.fs).sent
      ∧ (downloadMedia E i path r.fs).sent = [m]
      ∧ (runSched E fileps (List.replicate 5 (Act.task i)) r).gets
          = r.gets ++ List.replicate (downloadMedia E i path r.fs).gets i := by
  have hlen : i < r.tasks.length := by
    by_contra hge
    rw [List.getElem?_eq_none (by omega)] at hi
    exact absurd hi (by simp)
  by_cases h1 : path ∈ r.fs
  · refine ⟨1, ?_⟩
    simp [List.replicate, runSched, stepAct, stepTask, Run.finish, Run.goto, downloadMedia,
      hi, hp, h1, List.getElem?_set_self hlen]
  · by_cases h2 : E.getOk i = true
    · by_cases h3 : E.tempdir ∈ r.fs
      · by_cases h4 : E.createOk i = true
        · refine ⟨1, ?_⟩
          simp [List.replicate, runSched, stepAct, stepTask, Run.finish, Run.goto,
            downloadMedia, osCreate, osMkdir, hi, hp, h1, h2, h3, h4,
            List.getElem?_set_self hlen]
        · refine ⟨-1, ?_⟩
          simp [List.replicate, runSched, stepAct, stepTask, Run.finish, Run.goto,
            downloadMedia, osCreate, osMkdir, hi, hp, h1, h2, h3, h4,
            List.getElem?_set_self hlen]
      · by_cases h5 : E.mkdirOk i = true
        · by_cases h4 : E.createOk i = true
          · by_cases h6 : path = E.tempdir
            · refine ⟨-1, ?_⟩
              simp [List.replicate, runSched, stepAct, stepTask, Run.finish, Run.goto,
                downloadMedia, osCreate, osMkdir, hi, hp, h1, h2, h3, h4, h5, h6,
                List.getElem?_set_self hlen]
            · refine ⟨1, ?_⟩
              simp [List.replicate, runSched, stepAct, stepTask, Run.finish, Run.goto,
                downloadMedia, osCreate, osMkdir, hi, hp, h1, h2, h3, h4, h5, h6,
                List.getElem?_set_self hlen]
          · refine ⟨-1, ?_⟩
            simp [List.replicate, runSched, stepAct, stepTask, Run.finish, Run.goto,
              downloadMedia, osCreate, osMkdir, hi, hp, h1, h2, h3, h4, h5,
              List.getElem?_set_self hlen]
        · refine ⟨-1, ?_⟩
          simp [List.replicate, runSched, stepAct, stepTask, Run.finish, Run.goto,
            downloadMedia, osCreate, osMkdir, hi, hp, h1, h2, h3, h5,
            List.getElem?_set_self hlen]
    · refine ⟨-1, ?_⟩
      simp [List.replicate, runSched, stepAct, stepTask, Run.finish, Run.goto, downloadMedia,
        hi, hp, h1, h2, List.getElem?_set_self hlen]

/-- C11: a `downloadMedia` task whose target already exists issues no GET, leaves
the existing paths unchanged and sends exactly one value, `1`; every task sends
exactly one value, `1` or `-1`, and it sends `1` exactly when the target already
existed or the GET succeeded, the temp directory existed or `os.Mkdir` created
it, and the exclusive `os.OpenFile` of the target succeeded. -/
theorem download_outcome (E : Env) (i : Nat) (path : String) (fs : List String) :
    (path ∈ fs → downloadMedia E i path fs = ⟨fs, [1], 0⟩)
    ∧ (∃ m, (downloadMedia E i path fs).sent = [m] ∧ (m = 1 ∨ m = -1))
    ∧ ((downloadMedia E i path fs).sent = [1]
        ↔ path ∈ fs
          ∨ (E.getOk i = true
              ∧ ∃ fs1, (E.tempdir ∈ fs ∧ fs1 = fs ∨ E.tempdir ∉ fs ∧ osMkdir E i fs = some fs1)
                  ∧ (osCreate E i path fs1).isSome = true)) := by
  refine ⟨?_, ?_, ?_⟩
  · intro h
    simp [downloadMedia, h]
  · unfold downloadMedia
    split_ifs
    · exact ⟨1, rfl, Or.inl rfl⟩
    · exact ⟨-1, rfl, Or.inr rfl⟩
    · cases hc : osCreate E i path fs <;> simp [hc]
    · cases hm : osMkdir E i fs with
      | none => simp
      | some fs1 => cases hc : osCreate E i path fs1 <;> simp [hc]
  · by_cases h1 : path ∈ fs
    · simp [downloadMedia, h1]
    · by_cases h2 : E.getOk i = true
      · by_cases h3 : E.tempdir ∈ fs
        · cases hc : osCreate E i path fs <;> simp [downloadMedia, h1, h2, h3, hc]
        · cases hm : osMkdir E i fs with
          | none => simp [downloadMedia, h1, h2, h3, hm]
          | some fs1 =>
            cases hc : osCreate E i path fs1 <;> simp [downloadMedia, h1, h2, h3, hm, hc]
      · simp [downloadMedia, h1, h2]

/-- An instance: the target exists already. -/
theorem download_outcome_witness :
    "/tmp/ringot/a.jpg" ∈ ["/tmp/ringot/a.jpg", "/tmp/ringot"]
    ∧ downloadMedia exampleEnv 0 "/tmp/ringot/a.jpg" ["/tmp/ringot/a.jpg", "/tmp/ringot"]
        = ⟨["/tmp/ringot/a.jpg", "/tmp/ringot"], [1], 0⟩ :=
  ⟨by decide,
    (download_outcome exampleEnv 0 "/tmp/ringot/a.jpg" ["/tmp/ringot/a.jpg", "/tmp/ringot"]).1
      (by decide)⟩

/-! ## Invariants of the highlighter -/

/-- One step keeps the scanner in one of its three modes. -/
theorem scanStepR_mode (K : Term) (fg bg : Attribute) (c : Int) (rest : List Int)
    (st : Scan) (h : st.Mode K fg bg) : (scanStepR K fg bg c rest st).Mode K fg bg := by
  unfold Scan.Mode at h ⊢
  unfold scanStepR
  rcases h with ⟨h1, h2, h3, h4⟩ | ⟨h1, h2, h3, h4⟩ | ⟨h1, h2, h3, h4⟩ <;>
    simp only [h1, h2] <;> split_ifs <;> simp_all

theorem scanStep_mode (K : Term) (fg bg : Attribute) (t : List UInt8) (st : Scan)
    (h : st.Mode K fg bg) : (scanStep K fg bg t st).Mode K fg bg := by
  rw [scanStep_eq]
  exact scanStepR_mode K fg bg _ _ st h

theorem scanStep_pos (K : Term) (fg bg : Attribute) (t : List UInt8) (st : Scan) :
    (scanStep K fg bg t st).pos = st.pos := by
  unfold scanStep
  simp only []
  split_ifs <;> rfl

theorem scanStates_mode (K : Term) (fg bg : Attribute) : ∀ (fuel : Nat) (t : List UInt8)
    (st : Scan), st.Mode K fg bg → ∀ s ∈ scanStates K fg bg fuel t st, s.Mode K fg bg := by
  intro fuel
  induction fuel with
  | zero => intro t st _ s hs; simp [scanStates] at hs
  | succ fuel ih =>
    intro t st h s hs
    unfold scanStates at hs
    split_ifs at hs with h0
    · simp at hs
    · have h1 := scanStep_mode K fg bg t st h
      simp only [List.mem_cons] at hs
      rcases hs with rfl | hs
      · exact h1
      · refine ih _ _ ?_ s hs
        unfold Scan.Mode at h1 ⊢
        exact h1

theorem drawLoop_colours (K : Term) (x y : Int) (fg bg : Attribute) : ∀ (fuel : Nat)
    (t : List UInt8) (st : Scan),
    (drawLoop K x y fg bg fuel t st).map (fun c => (c.fg, c.bg))
      = (scanStates K fg bg fuel t st).map (fun s => (s.foreColor, s.backColor)) := by
  intro fuel
  induction fuel with
  | zero => intro t st; rfl
  | succ fuel ih =>
    intro t st
    unfold drawLoop scanStates
    split_ifs with h0
    · rfl
    · simp only [List.map_cons, ih]

/-- C12: every cell `drawTextWithAutoNotice` emits carries `(fg, bg)`,
`(fg, ColorLowlight)` or `(ColorBlue, bg)`; at every `SetCell` call the scanner
is in one of the three modes normal, mention span, hashtag span, so the flags
`bgChanging` and `fgChanging` are never both set; and the colours of the cells
are the colours of these states. -/
theorem three_colour_pairs (K : Term) (str : List UInt8) (x y : Int) (fg bg : Attribute) :
    (∀ c ∈ drawTextWithAutoNotice K str x y fg bg,
      (c.fg, c.bg) = (fg, bg) ∨ (c.fg, c.bg) = (fg, K.ColorLowlight)
        ∨ (c.fg, c.bg) = (K.ColorBlue, bg))
    ∧ (∀ s ∈ scanStates K fg bg str.length str ⟨0, fg, bg, false, false⟩,
        s.Mode K fg bg ∧ ¬ (s.bgChanging = true ∧ s.fgChanging = true))
    ∧ (drawTextWithAutoNotice K str x y fg bg).map (fun c => (c.fg, c.bg))
        = (scanStates K fg bg str.length str ⟨0, fg, bg, false, false⟩).map
            (fun s => (s.foreColor, s.backColor)) := by
  have hinit : (⟨0, fg, bg, false, false⟩ : Scan).Mode K fg bg := Or.inl ⟨rfl, rfl, rfl, rfl⟩
  have hmodes := scanStates_mode K fg bg str.length str _ hinit
  have hcol := drawLoop_colours K x y fg bg str.length str ⟨0, fg, bg, false, false⟩
  refine ⟨?_, ?_, hcol⟩
  · intro c hc
    have hmem : (c.fg, c.bg) ∈ (drawTextWithAutoNotice K str x y fg bg).map
        (fun c => (c.fg, c.bg)) := List.mem_map.mpr ⟨c, hc, rfl⟩
    unfold drawTextWithAutoNotice at hmem
    rw [hcol] at hmem
    obtain ⟨s, hs, hsc⟩ := List.mem_map.mp hmem
    rw [← hsc]
    rcases hmodes s hs with ⟨_, _, h3, h4⟩ | ⟨_, _, h3, h4⟩ | ⟨_, _, h3, h4⟩
    · exact Or.inl (by rw [h3, h4])
    · exact Or.inr (Or.inl (by rw [h3, h4]))
    · exact Or.inr (Or.inr (by rw [h3, h4]))
  · intro s hs
    refine ⟨hmodes s hs, ?_⟩
    rcases hmodes s hs with ⟨h1, h2, _, _⟩ | ⟨h1, h2, _, _⟩ | ⟨h1, h2, _, _⟩ <;>
      simp [h1, h2]

/-! ## Columns of the cells -/

theorem scanStepR_pos (K : Term) (fg bg : Attribute) (c : Int) (rest : List Int)
    (st : Scan) : (scanStepR K fg bg c rest st).pos = st.pos := by
  unfold scanStepR
  simp only []
  split_ifs <;> rfl

/-- The cells of a prefix `a` and the state in which the scanner reaches what
follows it. -/
theorem drawRunes_split (K : Term) (x y : Int) (fg bg : Attribute) (l : List Int) :
    ∀ (a : List Int) (st : Scan), st.Mode K fg bg →
      ∃ (st2 : Scan) (cs : List Cell), st2.Mode K fg bg
        ∧ st2.pos = st.pos + (a.map K.RuneWidth).sum
        ∧ cs.length = a.length
        ∧ drawRunes K x y fg bg (a ++ l) st = cs ++ drawRunes K x y fg bg l st2 := by
  intro a
  induction a with
  | nil => intro st h; exact ⟨st, [], h, by simp, rfl, rfl⟩
  | cons c q ih =>
    intro st h
    have h1 := scanStepR_mode K fg bg c (q ++ l) st h
    have h2 : ({ scanStepR K fg bg c (q ++ l) st with
        pos := (scanStepR K fg bg c (q ++ l) st).pos + K.RuneWidth c } : Scan).Mode K fg bg := by
      unfold Scan.Mode at h1 ⊢
      exact h1
    obtain ⟨st2, cs, h3, h4, h5, h6⟩ := ih _ h2
    refine ⟨st2, (⟨x + (scanStepR K fg bg c (q ++ l) st).pos, y, c,
      (scanStepR K fg bg c (q ++ l) st).foreColor,
      (scanStepR K fg bg c (q ++ l) st).backColor⟩ : Cell) :: cs, h3, ?_, by simp [h5], ?_⟩
    · rw [h4]
      simp only [scanStepR_pos, List.map_cons, List.sum_cons]
      omega
    · rw [List.cons_append, drawRunes]
      simp only [h6, List.cons_append]

/-- From a state reached with some column already used, a rune that is not a
space and is drawn with the caller's foreground leaves the `#` after it with
the caller's foreground. -/
theorem drawRunes_hash_after (K : Term) (x y : Int) (fg bg : Attribute) (p : Int)
    (rest : List Int) (st : Scan) (hm : st.Mode K fg bg) (hfg : fg ≠ K.ColorBlue)
    (hcol : st.pos + K.RuneWidth p ≠ 0) :
    ∃ c1 c2 tail, drawRunes K x y fg bg (p :: 0x23 :: rest) st = c1 :: c2 :: tail
      ∧ (c1.fg = fg → c2.fg = fg) := by
  have h1 := scanStepR_mode K fg bg p (0x23 :: rest) st hm
  refine ⟨_, _, _, by rw [drawRunes, drawRunes], ?_⟩
  simp only []
  intro hc1
  generalize hst1 : scanStepR K fg bg p (0x23 :: rest) st = st1 at h1 hc1
  have hpos : st1.pos = st.pos := by rw [← hst1, scanStepR_pos]
  have hnf : st1.fgChanging = false := by
    rcases h1 with ⟨h, _, _, _⟩ | ⟨h, _, _, _⟩ | ⟨_, _, h, _⟩
    · exact h
    · exact h
    · exact absurd (hc1.symm.trans h) hfg
  have hne : ¬ (st1.pos + K.RuneWidth p = 0) := by rw [hpos]; exact hcol
  rw [← hc1]
  unfold scanStepR
  simp only [hnf]
  split_ifs <;> simp_all

/-- C14 (counterexample): a zero width space and then `#a`: the `#` is the second
rune and follows a rune that is not a space and is drawn with the caller's
foreground `1`, and it is drawn with `ColorBlue` (`5`), because `pos` is still 0. -/
theorem hash_after_zero_width_blue :
    runes [0xE2, 0x80, 0x8B, 0x23, 0x61] = [0x200B, 0x23, 0x61]
    ∧ exampleTermWide.RuneWidth 0x200B = 0
    ∧ (drawTextWithAutoNotice exampleTermWide [0xE2, 0x80, 0x8B, 0x23, 0x61] 0 0 1 2).map
          Cell.paint
        = [(0x200B, 1, 2), (0x23, 5, 2), (0x61, 5, 2)] := by
  decide

/-- C14 (amended): a `#` that is not at display column 0 (the display widths of
the runes before it do not add up to 0) does not start a hashtag span, preceded
by a space or not: if the rune just before it is drawn with the caller's
foreground, so is the `#`. -/
theorem hash_not_at_column_zero (K : Term) (str : List UInt8) (x y : Int)
    (fg bg : Attribute) (hfg : fg ≠ K.ColorBlue) (k : Nat) (p : Int)
    (hp : (runes str)[k]? = some p)
    (hh : (runes str)[k + 1]? = some 0x23)
    (hcol : (((runes str).take (k + 1)).map K.RuneWidth).sum ≠ 0)
    (hprev : ((drawTextWithAutoNotice K str x y fg bg)[k]?).map (fun c => c.fg) = some fg) :
    ((drawTextWithAutoNotice K str x y fg bg)[k + 1]?).map (fun c => c.fg) = some fg := by
  rw [drawTextWithAutoNotice_eq] at hprev ⊢
  have hk : k + 1 < (runes str).length := by
    by_contra hge
    rw [List.getElem?_eq_none (by omega)] at hh
    exact absurd hh (by simp)
  have hsplit : runes str = (runes str).take k ++ p :: 0x23 :: (runes str).drop (k + 2) := by
    have e1 : (runes str)[k] = p := by
      have := List.getElem?_eq_getElem (show k < (runes str).length by omega)
      rw [this] at hp
      exact Option.some.inj hp
    have e2 : (runes str)[k + 1] = 0x23 := by
      have := List.getElem?_eq_getElem hk
      rw [this] at hh
      exact Option.some.inj hh
    conv_lhs => rw [← List.take_append_drop k (runes str)]
    congr 1
    rw [List.drop_eq_getElem_cons (show k < (runes str).length by omega), e1,
      List.drop_eq_getElem_cons hk, e2]
  have hinit : (⟨0, fg, bg, false, false⟩ : Scan).Mode K fg bg := Or.inl ⟨rfl, rfl, rfl, rfl⟩
  obtain ⟨st2, cs, hm, hpos, hlen, hdraw⟩ :=
    drawRunes_split K x y fg bg (p :: 0x23 :: (runes str).drop (k + 2))
      ((runes str).take k) ⟨0, fg, bg, false, false⟩ hinit
  have hlen2 : cs.length = k := by
    rw [hlen, List.length_take]; omega
  have hcol2 : st2.pos + K.RuneWidth p ≠ 0 := by
    rw [hpos]
    have : ((runes str).take (k + 1)).map K.RuneWidth
        = ((runes str).take k).map K.RuneWidth ++ [K.RuneWidth p] := by
      rw [List.take_succ, hp]; simp
    rw [this, List.sum_append] at hcol
    simpa using hcol
  obtain ⟨c1, c2, tail, hcells, himp⟩ :=
    drawRunes_hash_after K x y fg bg p ((runes str).drop (k + 2)) st2 hm hfg hcol2
  rw [hsplit, hdraw, hcells] at hprev ⊢
  rw [List.getElem?_append_right (by omega)] at hprev ⊢
  simp only [hlen2, Nat.sub_self, List.getElem?_cons_zero, Option.map_some',
    Option.some.injEq] at hprev
  have h1 : k + 1 - k = 1 := by omega
  simp only [hlen2, h1, List.getElem?_cons_succ, List.getElem?_cons_zero, Option.map_some',
    Option.some.injEq]
  exact himp hprev

/-- An instance: `a#b`, where the `#` follows `a` at column 1. -/
theorem hash_not_at_column_zero_witness :
    ((1 : Attribute) ≠ exampleTerm.ColorBlue
      ∧ (runes (ascii "a#b"))[0]? = some 0x61
      ∧ (runes (ascii "a#b"))[0 + 1]? = some 0x23
      ∧ (((runes (ascii "a#b")).take (0 + 1)).map exampleTerm.RuneWidth).sum ≠ 0
      ∧ ((drawTextWithAutoNotice exampleTerm (ascii "a#b") 0 0 1 2)[0]?).map (fun c => c.fg)
          = some 1)
    ∧ ((drawTextWithAutoNotice exampleTerm (ascii "a#b") 0 0 1 2)[0 + 1]?).map (fun c => c.fg)
        = some 1 :=
  ⟨⟨by decide, by decide, by decide, by decide, by decide⟩,
    hash_not_at_column_zero exampleTerm (ascii "a#b") 0 0 1 2 (by decide) 0 0x61
      (by decide) (by decide) (by decide) (by decide)⟩

/-! ## Sequences of calls on the lock -/

theorem lock_calls_state : ∀ (calls : List LockCall) (l : Ringot.lock),
    l.mutex = false → (l.locking = 0 ∨ l.locking = 1) →
    ∃ l2, lock.calls calls l = some l2 ∧ l2.mutex = false
      ∧ (l2.locking = 0 ∨ l2.locking = 1)
      ∧ (l2.locking = 1 ↔ calls.getLast? = some LockCall.lock
          ∨ (calls = [] ∧ l.locking = 1)) := by
  intro calls
  induction calls with
  | nil => intro l hm hf; exact ⟨l, rfl, hm, hf, by simp⟩
  | cons c rest ih =>
    intro l hm hf
    cases c with
    | lock =>
      have hstep : ∃ e, l.lock = some (e, ⟨false, 1⟩) := by
        rcases hf with h | h
        · exact ⟨LockError.nil, by
            cases l; simp_all [lock.lock]⟩
        · exact ⟨LockError.ErrAlreayLocking, by
            cases l; simp_all [lock.lock]⟩
      obtain ⟨e, he⟩ := hstep
      obtain ⟨l2, h1, h2, h3, h4⟩ := ih ⟨false, 1⟩ rfl (Or.inr rfl)
      refine ⟨l2, by simp [lock.calls, he, h1], h2, h3, ?_⟩
      rw [h4]
      cases rest with
      | nil => simp
      | cons d ds => simp [List.getLast?_cons_cons]
    | unlock =>
      have hstep : l.unlock = some ⟨false, 0⟩ := by
        rcases hf with h | h <;> (cases l; simp_all [lock.unlock])
      obtain ⟨l2, h1, h2, h3, h4⟩ := ih ⟨false, 0⟩ rfl (Or.inl rfl)
      refine ⟨l2, by simp [lock.calls, hstep, h1], h2, h3, ?_⟩
      rw [h4]
      cases rest with
      | nil => simp
      | cons d ds => simp [List.getLast?_cons_cons]

/-- C15: after any sequence of `lock()` and `unlock()` calls made one after the
other on a zero-value lock, every call has returned, the flag is 0 or 1, and
`isLocking()` returns true exactly when the last call was `lock()`; `unlock()`
then leaves the flag at 0, after which `isLocking()` is false and `lock()`
returns `nil`; and `unlock()` on a lock that is not locked changes nothing. -/
theorem lock_unlock_sequences (calls : List LockCall) :
    ∃ l, lock.calls calls lock.zero = some l
      ∧ (l.locking = 0 ∨ l.locking = 1)
      ∧ l.isLocking = some (decide (calls.getLast? = some LockCall.lock))
      ∧ (∃ l2, l.unlock = some l2 ∧ l2.locking = 0 ∧ l2.isLocking = some false
          ∧ ∃ l3, l2.lock = some (LockError.nil, l3) ∧ l3.locking = 1)
      ∧ (l.locking = 0 → l.unlock = some l) := by
  obtain ⟨l, h1, h2, h3, h4⟩ := lock_calls_state calls lock.zero rfl (Or.inl rfl)
  refine ⟨l, h1, h3, ?_, ?_, ?_⟩
  · have h5 : (l.locking = 1) ↔ calls.getLast? = some LockCall.lock := by
      rw [h4]
      simp [lock.zero]
    simp only [lock.isLocking, h2, Bool.false_eq_true, if_false, Option.some.injEq]
    by_cases h : l.locking = 1
    · simp [h, h5.mp h]
    · have : ¬ calls.getLast? = some LockCall.lock := fun hc => h (h5.mpr hc)
      simp [h, this]
  · refine ⟨⟨false, 0⟩, ?_, rfl, by decide, ⟨false, 1⟩, by decide, rfl⟩
    rcases h3 with h | h <;> (cases l; simp_all [lock.unlock])
  · intro h0
    cases l
    simp_all [lock.unlock]

/-! ## Concurrent calls of `lock` -/

/-- A caller alone on a free lock runs `lock.lock` in four statements. -/
theorem lockStep_alone (l : Ringot.lock) (hm : l.mutex = false) :
    ∃ e l2, l.lock = some (e, l2)
      ∧ lockRace [0, 0, 0, 0] ⟨l, [LockPc.check]⟩ = ⟨l2, [LockPc.returned e]⟩ := by
  cases l with
  | mk m k =>
    simp only at hm
    subst hm
    by_cases h1 : k = 1
    · subst h1
      exact ⟨LockError.ErrAlreayLocking, ⟨false, 1⟩, by decide, by decide⟩
    · by_cases h0 : k = 0
      · subst h0
        exact ⟨LockError.nil, ⟨false, 1⟩, by decide, by decide⟩
      · refine ⟨LockError.nil, ⟨false, k⟩, ?_, ?_⟩
        · simp [lock.lock, h1, h0]
        · simp [lockRace, lockStep, h1, h0]

/-- C16: two goroutines call `lock()` on a zero-value lock; both run the flag
check before either takes the mutex (after the first two steps both are about to
call `mutex.Lock()` and the mutex is free), and then both return `nil`. -/
theorem lock_race_both_nil :
    ∃ sched : List Nat,
      lockRace (sched.take 2) ⟨lock.zero, [LockPc.check, LockPc.check]⟩
        = ⟨⟨false, 0⟩, [LockPc.acquire, LockPc.acquire]⟩
      ∧ lockRace sched ⟨lock.zero, [LockPc.check, LockPc.check]⟩
        = ⟨⟨false, 1⟩, [LockPc.returned LockError.nil, LockPc.returned LockError.nil]⟩ :=
  ⟨[0, 1, 0, 0, 0, 1, 1, 1], by decide, by decide⟩

/-! ## The failure count and the collector -/

theorem count_set_of_ne (l : List Phase) (i : Nat) (a b ph : Phase) (hi : l[i]? = some ph)
    (hph : ph ≠ b) :
    (l.set i a).count b = l.count b + (if a = b then 1 else 0) := by
  have hlen : i < l.length := by
    by_contra hge
    rw [List.getElem?_eq_none (by omega)] at hi
    exact absurd hi (by simp)
  have hget : l[i] = ph := by
    rw [List.getElem?_eq_getElem hlen] at hi
    exact Option.some.inj hi
  rw [List.count_set _ _ _ _ hlen, hget]
  simp [hph]

theorem stepTask_failuresCounted (E : Env) (i : Nat) (path : String) (ph : Phase) (r : Run)
    (hi : r.tasks[i]? = some ph) (h : FailuresCounted r) :
    FailuresCounted (stepTask E i path ph r) := by
  unfold FailuresCounted at h ⊢
  cases ph <;>
    simp only [stepTask, Run.finish, Run.goto] <;>
    (try split_ifs) <;>
    first
    | exact h
    | (simp only [count_set_of_ne _ _ _ (Phase.done (-1)) _ hi (by simp), List.count_append]
       simp
       omega)

theorem runSched_failuresCounted (E : Env) (fileps : List String) :
    ∀ (sched : List Act) (r : Run), FailuresCounted r →
      FailuresCounted (runSched E fileps sched r) := by
  intro sched
  induction sched with
  | nil => intro r h; exact h
  | cons a rest ih =>
    intro r h
    apply ih
    cases a with
    | task i =>
      cases hph : r.tasks[i]? with
      | none => simpa [stepAct, hph] using h
      | some ph =>
        cases hp : fileps[i]? with
        | none => simpa [stepAct, hph, hp] using h
        | some path =>
          simp only [stepAct, hph, hp]
          exact stepTask_failuresCounted E i path ph r hph h
    | collect =>
      unfold stepAct
      split_ifs
      · exact h
      · cases hm : r.mes with
        | nil => exact h
        | cons m ms =>
          unfold FailuresCounted at h ⊢
          rw [hm] at h
          simp only [collectorStep]
          by_cases hm1 : m = -1
          · subst hm1
            simp only [if_true]
            simp only [List.count_cons_self] at h
            omega
          · simp only [hm1, if_false]
            rw [List.count_cons_of_ne (Ne.symm hm1)] at h
            exact h

/-- The failure count `openMedia` reads for its final status is the number of
tasks that reported failure less the `-1` values still in the channel. -/
theorem openMedia_receiveErrors (E : Env) (urls fs0 : List String)
    (sched during : List Act) (o : Opened)
    (h : openMedia E urls fs0 sched during = some o) :
    o.final.mes.count (-1) + o.final.coll.receiveErrors = o.tasks.count (Phase.done (-1))
    ∧ o.status = finalStatus o.final.coll.receiveErrors urls.length := by
  unfold openMedia at h
  simp only [] at h
  split_ifs at h with hdone
  simp only [Option.some.injEq] at h
  subst h
  have h0 : FailuresCounted
      ⟨fs0, urls.map (fun _ => Phase.statTarget), [], [], Collector.start⟩ := by
    unfold FailuresCounted
    simp [Collector.start, List.count_replicate]
  have h1 := runSched_failuresCounted E (localPaths E urls) sched _ h0
  have h2 := runSched_failuresCounted E (localPaths E urls) during _ h1
  obtain ⟨_, htasks⟩ := runSched_of_allDone E (localPaths E urls) during _ hdone
  unfold FailuresCounted at h2
  rw [htasks] at h2
  exact ⟨h2, rfl⟩

/-- C17 (evaluation at the failing input): two URLs, the download of the second
fails; both tasks have finished and sent their outcomes, the collector has not
yet taken any, and `openMedia` goes on: it opens the first file and ends with
the empty status although a task reported failure.  When the collector has
taken both outcomes before the final status, the status is the failure message. -/
theorem final_status_before_collector :
    (openMedia exampleEnvFail ["http://h/a.jpg", "http://h/b.jpg"] [] (sequential 2) []).map
        (fun o => (o.tasks, o.opens, o.final.mes, o.final.coll.receiveErrors, o.status))
      = some ([Phase.done 1, Phase.done (-1)], [(0, "/tmp/ringot/a.jpg")], [1, -1], 0, "")
    ∧ (openMedia exampleEnvFail ["http://h/a.jpg", "http://h/b.jpg"] [] (sequential 2)
          [Act.collect, Act.collect]).map
        (fun o => (o.tasks, o.opens, o.final.mes, o.final.coll.receiveErrors, o.status))
      = some ([Phase.done 1, Phase.done (-1)], [(0, "/tmp/ringot/a.jpg")], [], 1,
          "Err:media downloading was failed") := by
  constructor <;> rfl

/-! ## The values of multi-byte runes -/

theorem and_mask (p n : Nat) : p &&& (2 ^ n - 1) = p % 2 ^ n :=
  Nat.and_pow_two_sub_one_eq_mod p n

theorem rune2_eq (p0 b1 : Nat) :
    rune2 p0 b1 = (((p0 % 32) * 64 + b1 % 64 : Nat) : Int) := by
  unfold rune2
  have h1 : p0 &&& 0x1F = p0 % 32 := and_mask p0 5
  have h2 : b1 &&& 0x3F = b1 % 64 := and_mask b1 6
  rw [h1, h2, Nat.shiftLeft_eq]
  have h3 := Nat.mul_add_lt_is_or (show b1 % 64 < 2 ^ 6 by omega) (p0 % 32)
  rw [Nat.mul_comm (p0 % 32) (2 ^ 6), ← h3]

theorem rune3_eq (p0 b1 b2 : Nat) :
    rune3 p0 b1 b2 = (((p0 % 16) * 4096 + (b1 % 64) * 64 + b2 % 64 : Nat) : Int) := by
  unfold rune3
  have h1 : p0 &&& 0x0F = p0 % 16 := and_mask p0 4
  have h2 : b1 &&& 0x3F = b1 % 64 := and_mask b1 6
  have h3 : b2 &&& 0x3F = b2 % 64 := and_mask b2 6
  rw [h1, h2, h3, Nat.shiftLeft_eq, Nat.shiftLeft_eq]
  have h4 := Nat.mul_add_lt_is_or (show b1 % 64 * 2 ^ 6 < 2 ^ 12 by omega) (p0 % 16)
  rw [Nat.mul_comm (p0 % 16) (2 ^ 12), ← h4]
  have h5 : 2 ^ 12 * (p0 % 16) + b1 % 64 * 2 ^ 6 = 2 ^ 6 * ((p0 % 16) * 64 + b1 % 64) := by
    ring
  have h6 := Nat.mul_add_lt_is_or (show b2 % 64 < 2 ^ 6 by omega) ((p0 % 16) * 64 + b1 % 64)
  rw [h5, ← h6]
  congr 1
  ring

theorem rune4_eq (p0 b1 b2 b3 : Nat) :
    rune4 p0 b1 b2 b3
      = (((p0 % 8) * 262144 + (b1 % 64) * 4096 + (b2 % 64) * 64 + b3 % 64 : Nat) : Int) := by
  unfold rune4
  have h1 : p0 &&& 0x07 = p0 % 8 := and_mask p0 3
  have h2 : b1 &&& 0x3F = b1 % 64 := and_mask b1 6
  have h3 : b2 &&& 0x3F = b2 % 64 := and_mask b2 6
  have h7 : b3 &&& 0x3F = b3 % 64 := and_mask b3 6
  rw [h1, h2, h3, h7, Nat.shiftLeft_eq, Nat.shiftLeft_eq, Nat.shiftLeft_eq]
  have h4 := Nat.mul_add_lt_is_or (show b1 % 64 * 2 ^ 12 < 2 ^ 18 by omega) (p0 % 8)
  rw [Nat.mul_comm (p0 % 8) (2 ^ 18), ← h4]
  have h5 : 2 ^ 18 * (p0 % 8) + b1 % 64 * 2 ^ 12 = 2 ^ 12 * ((p0 % 8) * 64 + b1 % 64) := by
    ring
  have h6 := Nat.mul_add_lt_is_or (show b2 % 64 * 2 ^ 6 < 2 ^ 12 by omega)
    ((p0 % 8) * 64 + b1 % 64)
  rw [h5, ← h6]
  have h8 : 2 ^ 12 * ((p0 % 8) * 64 + b1 % 64) + b2 % 64 * 2 ^ 6
      = 2 ^ 6 * (((p0 % 8) * 64 + b1 % 64) * 64 + b2 % 64) := by
    ring
  have h9 := Nat.mul_add_lt_is_or (show b3 % 64 < 2 ^ 6 by omega)
    (((p0 % 8) * 64 + b1 % 64) * 64 + b2 % 64)
  rw [h8, ← h9]
  congr 1
  ring

theorem first_range (b : Nat) :
    (first b = 0xF0 → b < 0x80)
    ∧ (first b = 0xF1 → 0x80 ≤ b)
    ∧ (first b = 0x02 → 0xC2 ≤ b ∧ b < 0xE0)
    ∧ (first b = 0x13 → b = 0xE0)
    ∧ (first b = 0x03 → 0xE1 ≤ b ∧ b < 0xF0)
    ∧ (first b = 0x23 → b = 0xED)
    ∧ (first b = 0x34 → b = 0xF0)
    ∧ (first b = 0x04 → 0xF1 ≤ b ∧ b < 0xF4)
    ∧ (first b = 0x44 → b = 0xF4) := by
  unfold first
  split_ifs <;> simp <;> omega

/-- A decoded rune is the first byte when that is ASCII, and is at least `0x80`
otherwise. -/
theorem decodeRune_value (a : UInt8) (q : List UInt8) :
    (a.toNat < 0x80 ∧ (decodeRune (a :: q)).1 = (a.toNat : Int))
    ∨ (0x80 ≤ a.toNat ∧ 0x80 ≤ (decodeRune (a :: q)).1) := by
  have hr := first_range a.toNat
  unfold decodeRune
  rcases first_cases a.toNat with h | h | h | h | h | h | h | h | h
  all_goals
    simp only [List.getD_cons_zero, h, List.length_cons, acceptRanges, rune2_eq, rune3_eq,
      rune4_eq, RuneError]
    simp only [h] at hr
    norm_num at hr ⊢
  all_goals
    first
    | omega
    | (right
       omega)
    | (right
       refine ⟨by omega, ?_⟩
       split_ifs <;> simp only [] <;> omega)

/-! ## Text without trigger characters -/

theorem drawTextLoop_eq (K : Term) (x y : Int) (fg bg : Attribute) (fuel : Nat) :
    ∀ (t : List UInt8) (i : Nat), t.length ≤ fuel →
      drawTextLoop K x y fg bg fuel t i = drawTextRunes K x y fg bg (runes t) i := by
  induction fuel with
  | zero =>
    intro t i h
    have ht : t = [] := List.length_eq_zero.mp (Nat.le_zero.mp h)
    subst ht
    simp [drawTextLoop, runes_nil, drawTextRunes]
  | succ fuel ih =>
    intro t i h
    cases t with
    | nil => simp [drawTextLoop, runes_nil, drawTextRunes]
    | cons a q =>
      have hpos := decodeRune_size_pos (a :: q) (by simp)
      have hlen : ((a :: q).drop (decodeRune (a :: q)).2).length ≤ fuel := by
        simp only [List.length_drop, List.length_cons] at h ⊢; omega
      rw [runes_step (a :: q) (by simp)]
      simp only [drawTextLoop, List.length_cons, Nat.add_one_ne_zero, if_false, drawTextRunes]
      rw [ih _ _ hlen]

/-- A byte string without the bytes `@` and `#` has no rune `@` or `#`. -/
theorem runes_no_trigger (n : Nat) : ∀ (t : List UInt8), t.length ≤ n →
    (∀ b ∈ t, b ≠ 0x40 ∧ b ≠ 0x23) → ∀ c ∈ runes t, c ≠ 0x40 ∧ c ≠ 0x23 := by
  induction n with
  | zero =>
    intro t h _ c hc
    have ht : t = [] := List.length_eq_zero.mp (Nat.le_zero.mp h)
    subst ht
    simp [runes_nil] at hc
  | succ n ih =>
    intro t h hb c hc
    cases t with
    | nil => simp [runes_nil] at hc
    | cons a q =>
      have hpos := decodeRune_size_pos (a :: q) (by simp)
      rw [runes_step (a :: q) (by simp)] at hc
      simp only [List.mem_cons] at hc
      rcases hc with rfl | hc
      · have ha := hb a (by simp)
        have h40 : a.toNat ≠ 0x40 := fun e => ha.1 (UInt8.ext (e.trans (by decide)))
        have h23 : a.toNat ≠ 0x23 := fun e => ha.2 (UInt8.ext (e.trans (by decide)))
        rcases decodeRune_value a q with ⟨_, hv⟩ | ⟨_, hv⟩
        · rw [hv]
          constructor <;> omega
        · constructor <;> omega
      · refine ih _ ?_ ?_ c hc
        · simp only [List.length_drop, List.length_cons] at h ⊢; omega
        · intro b hmem
          exact hb b (List.mem_of_mem_drop hmem)

theorem scanStepR_plain (K : Term) (fg bg : Attribute) (c : Int) (rest : List Int)
    (st : Scan) (hf : st.fgChanging = false) (hb : st.bgChanging = false)
    (hc : c ≠ 0x40 ∧ c ≠ 0x23) (hrest : ∀ d ∈ rest, d ≠ 0x40 ∧ d ≠ 0x23) :
    scanStepR K fg bg c rest st = st := by
  have hhead : rest.headD RuneError ≠ 0x23 := by
    cases rest with
    | nil => simp [RuneError]
    | cons d q => exact (hrest d (by simp)).2
  unfold scanStepR
  simp only [hf, hb, hc.1, hc.2, hhead]
  split_ifs <;> simp_all

theorem drawRunes_plain (K : Term) (x y : Int) (fg bg : Attribute) :
    ∀ (l : List Int) (st : Scan), st.fgChanging = false → st.bgChanging = false →
      (∀ c ∈ l, c ≠ 0x40 ∧ c ≠ 0x23) →
      drawRunes K x y fg bg l st
        = drawTextRunes K x y st.foreColor st.backColor l st.pos := by
  intro l
  induction l with
  | nil => intro st _ _ _; rfl
  | cons c q ih =>
    intro st hf hb hl
    have hstep := scanStepR_plain K fg bg c q st hf hb (hl c (by simp))
      (fun d hd => hl d (by simp [hd]))
    rw [drawRunes, drawTextRunes]
    simp only [hstep]
    rw [ih { st with pos := st.pos + K.RuneWidth c } hf hb (fun d hd => hl d (by simp [hd]))]

/-- C18: on a byte string that contains neither the byte `@` nor the byte `#`,
valid UTF-8 or not, `drawTextWithAutoNotice` makes exactly the `SetCell` calls
of `drawText`. -/
theorem plain_text_as_drawText (K : Term) (str : List UInt8) (x y : Int)
    (fg bg : Attribute) (h : ∀ b ∈ str, b ≠ 0x40 ∧ b ≠ 0x23) :
    drawTextWithAutoNotice K str x y fg bg = drawText K str x y fg bg := by
  have hr := runes_no_trigger str.length str (le_refl _) h
  rw [drawTextWithAutoNotice_eq, drawRunes_plain K x y fg bg _ _ rfl rfl hr]
  unfold drawText
  rw [drawTextLoop_eq K x y fg bg str.length str 0 (le_refl _)]

/-- An instance: an invalid byte, a space, and a three-byte rune. -/
theorem plain_text_as_drawText_witness :
    (∀ b ∈ [0xFF, 0x20, 0xE3, 0x81, 0x82], b ≠ (0x40 : UInt8) ∧ b ≠ 0x23)
    ∧ drawTextWithAutoNotice exampleTermWide [0xFF, 0x20, 0xE3, 0x81, 0x82] 0 0 1 2
        = [⟨0, 0, 0xFFFD, 1, 2⟩, ⟨2, 0, 0x20, 1, 2⟩, ⟨3, 0, 0x3042, 1, 2⟩]
    ∧ drawTextWithAutoNotice exampleTermWide [0xFF, 0x20, 0xE3, 0x81, 0x82] 0 0 1 2
        = drawText exampleTermWide [0xFF, 0x20, 0xE3, 0x81, 0x82] 0 0 1 2 :=
  ⟨by decide, by decide,
    plain_text_as_drawText exampleTermWide [0xFF, 0x20, 0xE3, 0x81, 0x82] 0 0 1 2 (by decide)⟩

/-! ## Claims about the byte slices -/

theorem copyInto_length (arr : List UInt8) (off n : Nat) (vals : List UInt8)
    (h1 : off + n ≤ arr.length) (h2 : n ≤ vals.length) :
    (copyInto arr off n vals).length = arr.length := by
  simp only [copyInto, List.length_append, List.length_take, List.length_drop]
  omega

theorem copyInto_take (arr : List UInt8) (off n : Nat) (vals : List UInt8)
    (h1 : off ≤ arr.length) (k : Nat) (hk : k ≤ off) :
    (copyInto arr off n vals).take k = arr.take k := by
  unfold copyInto
  rw [List.append_assoc, List.take_append_of_le_length (by simp; omega), List.take_take]
  congr 1
  omega

theorem copyInto_drop (arr : List UInt8) (off n : Nat) (vals : List UInt8)
    (h1 : off ≤ arr.length) :
    (copyInto arr off n vals).drop off = vals.take n ++ arr.drop (off + n) := by
  unfold copyInto
  rw [List.append_assoc]
  rw [List.drop_append_of_le_length (by simp; omega), List.drop_eq_nil_of_le (by simp),
    List.nil_append]


theorem Slice.bytes_length (s : Slice) (h : s.len ≤ s.arr.length) :
    s.bytes.length = s.len := by
  simp [Slice.bytes, h]

theorem byteSliceRemove_nat (b : Slice) (f t : Nat) (hb : b.len ≤ b.arr.length)
    (hft : f ≤ t) (hto : t ≤ b.len) :
    byteSliceRemove b f t
      = some ⟨copyInto b.arr f (b.len - t) (b.bytes.drop t), f + (b.len - t)⟩ := by
  have hlen : (copyInto b.arr f (b.len - t) (b.bytes.drop t)).length = b.arr.length :=
    copyInto_length _ _ _ _ (by omega) (by simp [Slice.bytes_length b hb])
  have hmin : min (b.len - f) (b.len - t) = b.len - t := by omega
  unfold byteSliceRemove
  simp only [Int.toNat_ofNat, hmin, hlen]
  rw [if_neg (by omega), if_neg (by omega)]
  congr 2
  omega

theorem byteSliceRemove_bytes (b : Slice) (f t : Nat) (hb : b.len ≤ b.arr.length)
    (hft : f ≤ t) (hto : t ≤ b.len) :
    (⟨copyInto b.arr f (b.len - t) (b.bytes.drop t), f + (b.len - t)⟩ : Slice).bytes
      = b.bytes.take f ++ b.bytes.drop t := by
  have h1 : (b.bytes.drop t).take (b.len - t) = b.bytes.drop t := by
    apply List.take_of_length_le
    simp [Slice.bytes_length b hb]
  have h2 : b.arr.take f = b.bytes.take f := by
    simp only [Slice.bytes, List.take_take]
    congr 1
    omega
  have h3 : (b.bytes.take f ++ b.bytes.drop t).length = f + (b.len - t) := by
    simp [Slice.bytes_length b hb]
    omega
  show (copyInto b.arr f (b.len - t) (b.bytes.drop t)).take (f + (b.len - t)) = _
  unfold copyInto
  rw [h1, h2, ← h3, List.take_left']
  rfl

/-- The array `byteSliceInsert` works on once it has made room: it has at least
`len(dst) + len(src)` elements and starts with the elements of `dst`. -/
theorem insert_room (dst : Slice) (k : Nat) (hdst : dst.len ≤ dst.arr.length) :
    dst.len + k ≤ (if dst.arr.length < dst.len + k then
        (⟨copyInto (List.replicate (dst.len + k) 0) 0 (min dst.len dst.len) dst.bytes,
          dst.len⟩ : Slice) else dst).arr.length
    ∧ (if dst.arr.length < dst.len + k then
        (⟨copyInto (List.replicate (dst.len + k) 0) 0 (min dst.len dst.len) dst.bytes,
          dst.len⟩ : Slice) else dst).arr.take dst.len = dst.bytes := by
  have hbl := Slice.bytes_length dst hdst
  split_ifs with h
  · constructor
    · simp only [copyInto, List.take_zero, List.nil_append, List.length_append,
        List.length_take, List.length_drop, List.length_replicate, hbl]
      omega
    · simp only [copyInto, List.take_zero, List.nil_append, Nat.min_self, Nat.zero_add]
      rw [List.take_of_length_le (le_of_eq hbl), ← hbl, List.take_left']
      rfl
  · exact ⟨by omega, rfl⟩

theorem insert_bytes (arr0 src bytes : List UInt8) (len p : Nat) (hp : p ≤ len)
    (h0 : len + src.length ≤ arr0.length) (h1 : arr0.take len = bytes) :
    (copyInto (copyInto arr0 (p + src.length) (len - p)
        ((arr0.take (len + src.length)).drop p)) p src.length src).take (len + src.length)
      = bytes.take p ++ src ++ bytes.drop p
    ∧ len + src.length ≤ (copyInto (copyInto arr0 (p + src.length) (len - p)
        ((arr0.take (len + src.length)).drop p)) p src.length src).length := by
  have hmid : ((arr0.take (len + src.length)).drop p).take (len - p) = bytes.drop p := by
    rw [← h1, List.drop_take, List.drop_take, List.take_take]
    congr 1
    omega
  have hmidlen : len - p ≤ ((arr0.take (len + src.length)).drop p).length := by
    simp only [List.length_drop, List.length_take]
    omega
  have hlen1 : (copyInto arr0 (p + src.length) (len - p)
      ((arr0.take (len + src.length)).drop p)).length = arr0.length :=
    copyInto_length _ _ _ _ (by omega) hmidlen
  have hbl : bytes.length = len := by
    rw [← h1, List.length_take]; omega
  constructor
  · unfold copyInto
    have hP : (arr0.take (p + src.length) ++ ((arr0.take (len + src.length)).drop p).take (len - p)
        ++ arr0.drop (p + src.length + (len - p))).take p = bytes.take p := by
      rw [List.append_assoc, List.take_append_of_le_length (by simp; omega), List.take_take,
        ← h1, List.take_take]
      congr 1
      omega
    have hD : (arr0.take (p + src.length) ++ ((arr0.take (len + src.length)).drop p).take (len - p)
        ++ arr0.drop (p + src.length + (len - p))).drop (p + src.length)
        = bytes.drop p ++ arr0.drop (p + src.length + (len - p)) := by
      rw [List.append_assoc, List.drop_append_of_le_length (by simp; omega),
        List.drop_eq_nil_of_le (by simp), List.nil_append, hmid]
    rw [hP, hD, List.take_of_length_le (le_refl src.length)]
    have hlen3 : (bytes.take p ++ src ++ bytes.drop p).length = len + src.length := by
      simp only [List.length_append, List.length_take, List.length_drop, hbl]
      omega
    rw [← List.append_assoc, ← hlen3, List.take_left']
    rfl
  · rw [copyInto_length _ _ _ _ (by rw [hlen1]; omega) (le_refl _), hlen1]
    exact h0

/-- C19: for `pos ≤ len(dst)`, `byteSliceInsert(dst, src, pos)` returns
`dst[:pos] ++ src ++ dst[pos:]`, and `byteSliceRemove` of the inserted range
gives back the elements of `dst`; for `from ≤ to ≤ len(b)`,
`byteSliceRemove(b, from, to)` returns `b[:from] ++ b[to:]`. -/
theorem insert_remove_bytes (dst : Slice) (src : List UInt8) (pos : Nat)
    (hdst : dst.len ≤ dst.arr.length) (hpos : pos ≤ dst.len)
    (b : Slice) (from_ to_ : Nat) (hb : b.len ≤ b.arr.length)
    (hft : from_ ≤ to_) (hto : to_ ≤ b.len) :
    (∃ r, byteSliceInsert dst src pos = some r
      ∧ r.bytes = dst.bytes.take pos ++ src ++ dst.bytes.drop pos
      ∧ ∃ r2, byteSliceRemove r pos (pos + src.length) = some r2 ∧ r2.bytes = dst.bytes)
    ∧ (∃ r, byteSliceRemove b from_ to_ = some r
      ∧ r.bytes = b.bytes.take from_ ++ b.bytes.drop to_) := by
  constructor
  · obtain ⟨h0, h1⟩ := insert_room dst src.length hdst
    generalize harr0 : (if dst.arr.length < dst.len + src.length then
        (⟨copyInto (List.replicate (dst.len + src.length) 0) 0 (min dst.len dst.len) dst.bytes,
          dst.len⟩ : Slice) else dst).arr = arr0 at h0 h1
    obtain ⟨h2, h3⟩ := insert_bytes arr0 src dst.bytes dst.len pos hpos h0 h1
    generalize harr2 : copyInto (copyInto arr0 (pos + src.length) (dst.len - pos)
        ((arr0.take (dst.len + src.length)).drop pos)) pos src.length src = arr2 at h2 h3
    have hmin1 : min (dst.len + src.length - (pos + src.length)) (dst.len + src.length - pos)
        = dst.len - pos := by omega
    have hmin2 : min (dst.len + src.length - pos) src.length = src.length := by omega
    have hins : byteSliceInsert dst src pos = some ⟨arr2, dst.len + src.length⟩ := by
      unfold byteSliceInsert
      simp only [Int.toNat_ofNat, hmin1, hmin2]
      rw [if_neg (by omega)]
      subst harr2
      subst harr0
      rfl
    refine ⟨⟨arr2, dst.len + src.length⟩, hins, h2, ?_⟩
    have hrem := byteSliceRemove_nat ⟨arr2, dst.len + src.length⟩ pos (pos + src.length) h3
      (by omega) (by simp only; omega)
    have hrem2 := byteSliceRemove_bytes ⟨arr2, dst.len + src.length⟩ pos (pos + src.length) h3
      (by omega) (by simp only; omega)
    refine ⟨_, by exact_mod_cast hrem, ?_⟩
    rw [hrem2]
    have hbytes : (⟨arr2, dst.len + src.length⟩ : Slice).bytes
        = dst.bytes.take pos ++ src ++ dst.bytes.drop pos := h2
    rw [hbytes]
    have hbl := Slice.bytes_length dst hdst
    have hpl : (dst.bytes.take pos).length = pos := by
      rw [List.length_take]; omega
    have e1 : (dst.bytes.take pos ++ src ++ dst.bytes.drop pos).take pos
        = dst.bytes.take pos := by
      rw [List.append_assoc, List.take_append_of_le_length (by rw [hpl]), List.take_take,
        Nat.min_self]
    have e2 : (dst.bytes.take pos ++ src ++ dst.bytes.drop pos).drop (pos + src.length)
        = dst.bytes.drop pos := by
      have : (dst.bytes.take pos ++ src).length = pos + src.length := by
        rw [List.length_append, hpl]
      rw [List.drop_append_of_le_length (by rw [this]), List.drop_eq_nil_of_le (by rw [this]),
        List.nil_append]
    rw [e1, e2, List.take_append_drop]
  · exact ⟨_, byteSliceRemove_nat b from_ to_ hb hft hto,
      byteSliceRemove_bytes b from_ to_ hb hft hto⟩

/-- An instance: `[7, 8]` inserted at 1 into `[1, 2, 3]` (capacity 4), and the
range from 1 to 3 removed from `[1, 2, 3, 4, 5]`. -/
theorem insert_remove_bytes_witness :
    ((⟨[1, 2, 3, 9], 3⟩ : Slice).len ≤ (⟨[1, 2, 3, 9], 3⟩ : Slice).arr.length
      ∧ 1 ≤ (⟨[1, 2, 3, 9], 3⟩ : Slice).len
      ∧ (⟨[1, 2, 3, 4, 5], 5⟩ : Slice).len ≤ (⟨[1, 2, 3, 4, 5], 5⟩ : Slice).arr.length
      ∧ 1 ≤ 3 ∧ 3 ≤ (⟨[1, 2, 3, 4, 5], 5⟩ : Slice).len)
    ∧ (byteSliceInsert ⟨[1, 2, 3, 9], 3⟩ [7, 8] 1).map Slice.bytes = some [1, 7, 8, 2, 3]
    ∧ (byteSliceRemove ⟨[1, 2, 3, 4, 5], 5⟩ 1 3).map Slice.bytes = some [1, 4, 5]
    ∧ ((∃ r, byteSliceInsert ⟨[1, 2, 3, 9], 3⟩ [7, 8] (1 : Nat) = some r
        ∧ r.bytes = (⟨[1, 2, 3, 9], 3⟩ : Slice).bytes.take 1 ++ [7, 8]
            ++ (⟨[1, 2, 3, 9], 3⟩ : Slice).bytes.drop 1
        ∧ ∃ r2, byteSliceRemove r (1 : Nat) ((1 : Nat) + ([7, 8] : List UInt8).length) = some r2
            ∧ r2.bytes = (⟨[1, 2, 3, 9], 3⟩ : Slice).bytes)
      ∧ (∃ r, byteSliceRemove ⟨[1, 2, 3, 4, 5], 5⟩ (1 : Nat) (3 : Nat) = some r
        ∧ r.bytes = (⟨[1, 2, 3, 4, 5], 5⟩ : Slice).bytes.take 1
            ++ (⟨[1, 2, 3, 4, 5], 5⟩ : Slice).bytes.drop 3)) :=
  ⟨⟨by decide, by decide, by decide, by decide, by decide⟩, by decide, by decide,
    insert_remove_bytes ⟨[1, 2, 3, 9], 3⟩ [7, 8] 1 (by decide) (by decide)
      ⟨[1, 2, 3, 4, 5], 5⟩ 1 3 (by decide) (by decide) (by decide)⟩

/-! ## Claims about `centeringStr` -/

theorem appendSpaces_eq (n : Nat) : ∀ val : List UInt8,
    appendSpaces n val = val ++ List.replicate n 0x20 := by
  induction n with
  | zero => intro val; simp [appendSpaces]
  | succ n ih =>
    intro val
    rw [appendSpaces, ih, List.append_assoc, List.replicate_succ]
    rfl

theorem two_pow_bits (bits : Nat) (hbits : 0 < bits) :
    (0 : Int) < 2 ^ (bits - 1) ∧ (2 : Int) ^ bits = 2 * 2 ^ (bits - 1) := by
  constructor
  · positivity
  · obtain ⟨k, rfl⟩ : ∃ k, bits = k + 1 := ⟨bits - 1, by omega⟩
    rw [Nat.add_sub_cancel, pow_succ, mul_comm]

theorem wrapInt_range (bits : Nat) (hbits : 0 < bits) (z : Int) :
    -(2 ^ (bits - 1)) ≤ wrapInt bits z ∧ wrapInt bits z < 2 ^ (bits - 1) := by
  obtain ⟨hpos, hpow⟩ := two_pow_bits bits hbits
  unfold wrapInt
  rw [hpow]
  have h1 := Int.emod_nonneg (z + 2 ^ (bits - 1)) (show (2 * 2 ^ (bits - 1) : Int) ≠ 0 by omega)
  have h2 := Int.emod_lt_of_pos (z + 2 ^ (bits - 1)) (show (0 : Int) < 2 * 2 ^ (bits - 1) by omega)
  constructor <;> omega

theorem wrapInt_of_range (bits : Nat) (hbits : 0 < bits) (z : Int)
    (hlo : -(2 ^ (bits - 1)) ≤ z) (hhi : z < 2 ^ (bits - 1)) : wrapInt bits z = z := by
  obtain ⟨hpos, hpow⟩ := two_pow_bits bits hbits
  unfold wrapInt
  rw [hpow, Int.emod_eq_of_lt (by omega) (by omega)]
  omega

/-- Whenever the wrapped difference `sub` is positive, the result is `⌈sub/2⌉`
spaces, the string, and `⌊sub/2⌋` spaces. -/
theorem centeringStr_of_pos (bits : Nat) (hbits : 0 < bits) (s : List UInt8) (w : Int)
    (h : 0 < wrapInt bits (w - s.length)) :
    centeringStr bits s w
      = List.replicate (((wrapInt bits (w - s.length)).toNat + 1) / 2) 0x20 ++ s
          ++ List.replicate ((wrapInt bits (w - s.length)).toNat / 2) 0x20 := by
  have hr := wrapInt_range bits hbits (w - s.length)
  unfold centeringStr
  simp only []
  generalize wrapInt bits (w - s.length) = d at h hr
  have hhalf : (d / 2).toNat = d.toNat / 2 := by omega
  rw [if_neg (by omega)]
  by_cases hev : d % 2 = 0
  · rw [if_pos hev, appendSpaces_eq, appendSpaces_eq, hhalf]
    have : (d.toNat + 1) / 2 = d.toNat / 2 := by omega
    rw [this]
    simp
  · rw [if_neg hev, appendSpaces_eq, appendSpaces_eq, hhalf,
      wrapInt_of_range bits hbits _ (by omega) (by omega)]
    have : (d / 2 + 1).toNat = (d.toNat + 1) / 2 := by omega
    rw [this]
    simp

/-- C20 (counterexample): with a 64-bit `int`, for the string `ab` and the
smallest `int` as width, where `w ≤ len(s)`, the difference `width - len(str)`
wraps around to `9223372036854775806`, the test `sub <= 0` fails, and the
padding loops run: the result is not the string itself. -/
theorem centeringStr_min_width_padded :
    (-9223372036854775808 : Int) = -(2 ^ (64 - 1))
    ∧ (-9223372036854775808 : Int) ≤ (ascii "ab").length
    ∧ wrapInt 64 (-9223372036854775808 - (ascii "ab").length) = 9223372036854775806
    ∧ centeringStr 64 (ascii "ab") (-9223372036854775808)
        = List.replicate 4611686018427387903 0x20 ++ ascii "ab"
            ++ List.replicate 4611686018427387903 0x20
    ∧ centeringStr 64 (ascii "ab") (-9223372036854775808) ≠ ascii "ab" := by
  have hlen : ((ascii "ab").length : Int) = 2 := by decide
  have hw : wrapInt 64 (-9223372036854775808 - ((ascii "ab").length : Int))
      = 9223372036854775806 := by
    rw [hlen]; decide
  have heq := centeringStr_of_pos 64 (by decide) (ascii "ab") (-9223372036854775808)
    (by rw [hw]; decide)
  rw [hw] at heq
  have h1 : ((9223372036854775806 : Int).toNat + 1) / 2 = 4611686018427387903 := by decide
  have h2 : (9223372036854775806 : Int).toNat / 2 = 4611686018427387903 := by decide
  rw [h1, h2] at heq
  refine ⟨by decide, by decide, hw, heq, ?_⟩
  intro hcontra
  have hl := congrArg List.length hcontra
  rw [heq, List.length_append, List.length_append, List.length_replicate] at hl
  omega

/-- C20 (amended): for an `int` width `w` such that `w - len(s)` does not
overflow (it is not below the smallest `int`, `-2 ^ (bits - 1)`),
`centeringStr(s, w)` returns `s` when `w ≤ len(s)`; otherwise, with
`d = w - len(s)`, it returns `⌈d/2⌉` spaces, `s`, and `⌊d/2⌋` spaces, a string of
byte length `w` whose left padding is the right padding or one more. -/
theorem centeringStr_padding (bits : Nat) (hbits : 0 < bits) (s : List UInt8) (w : Int)
    (hmin : -(2 ^ (bits - 1)) ≤ w - s.length) (hmax : w < 2 ^ (bits - 1)) :
    (w ≤ s.length → centeringStr bits s w = s)
    ∧ ((s.length : Int) < w →
        centeringStr bits s w
            = List.replicate (((w - s.length).toNat + 1) / 2) 0x20 ++ s
                ++ List.replicate ((w - s.length).toNat / 2) 0x20
          ∧ ((centeringStr bits s w).length : Int) = w
          ∧ (w - s.length).toNat / 2 ≤ ((w - s.length).toNat + 1) / 2
          ∧ ((w - s.length).toNat + 1) / 2 ≤ (w - s.length).toNat / 2 + 1
          ∧ ((w - s.length).toNat + 1) / 2 + (w - s.length).toNat / 2
              = (w - s.length).toNat) := by
  have hwrap : wrapInt bits (w - s.length) = w - s.length :=
    wrapInt_of_range bits hbits _ hmin (by omega)
  constructor
  · intro h
    unfold centeringStr
    simp only []
    rw [hwrap, if_pos (by omega)]
  · intro h
    have heq := centeringStr_of_pos bits hbits s w (by rw [hwrap]; omega)
    rw [hwrap] at heq
    refine ⟨heq, ?_, by omega, by omega, by omega⟩
    rw [heq]
    simp only [List.length_append, List.length_replicate]
    omega

/-- An instance: `ab` centred in width 2 and in width 5 with a 64-bit `int`, and
in width 5 with a 32-bit `int`. -/
theorem centeringStr_padding_witness :
    ((0 < 64) ∧ (-(2 ^ (64 - 1)) : Int) ≤ 2 - (ascii "ab").length
      ∧ (-(2 ^ (64 - 1)) : Int) ≤ 5 - (ascii "ab").length
      ∧ (5 : Int) < 2 ^ (64 - 1)
      ∧ (2 : Int) ≤ (ascii "ab").length ∧ ((ascii "ab").length : Int) < 5)
    ∧ centeringStr 64 (ascii "ab") 2 = ascii "ab"
    ∧ centeringStr 64 (ascii "ab") 5 = ascii "  ab "
    ∧ centeringStr 32 (ascii "ab") 5 = ascii "  ab " :=
  ⟨⟨by decide, by decide, by decide, by decide, by decide, by decide⟩,
    (centeringStr_padding 64 (by decide) (ascii "ab") 2 (by decide) (by decide)).1 (by decide),
    ((centeringStr_padding 64 (by decide) (ascii "ab") 5 (by decide) (by decide)).2
      (by decide)).1.trans (by decide),
    ((centeringStr_padding 32 (by decide) (ascii "ab") 5 (by decide) (by decide)).2
      (by decide)).1.trans (by decide)⟩

/-! ## One outcome per finished task -/

theorem countP_set_of_not (l : List Phase) (i : Nat) (a ph : Phase) (hi : l[i]? = some ph)
    (hph : ph.isDone = false) :
    (l.set i a).countP Phase.isDone = l.countP Phase.isDone + (if a.isDone then 1 else 0) := by
  have hlen : i < l.length := by
    by_contra hge
    rw [List.getElem?_eq_none (by omega)] at hi
    exact absurd hi (by simp)
  have hget : l[i] = ph := by
    rw [List.getElem?_eq_getElem hlen] at hi
    exact Option.some.inj hi
  rw [List.countP_set _ _ _ _ hlen, hget]
  simp [hph]

theorem stepTask_outcomesCounted (E : Env) (i : Nat) (path : String) (ph : Phase) (r : Run)
    (hi : r.tasks[i]? = some ph) (h : OutcomesCounted r) :
    OutcomesCounted (stepTask E i path ph r) := by
  unfold OutcomesCounted at h ⊢
  cases ph <;>
    simp only [stepTask, Run.finish, Run.goto] <;>
    (try split_ifs) <;>
    first
    | exact h
    | (simp only [countP_set_of_not _ _ _ _ hi rfl, List.length_append]
       simp [Phase.isDone]
       omega)

/-- In every run of the tasks and the collector, the values sent so far (still
in the channel or taken by the collector) are as many as the finished tasks. -/
theorem runSched_outcomesCounted (E : Env) (fileps : List String) :
    ∀ (sched : List Act) (r : Run), OutcomesCounted r →
      OutcomesCounted (runSched E fileps sched r) := by
  intro sched
  induction sched with
  | nil => intro r h; exact h
  | cons a rest ih =>
    intro r h
    apply ih
    cases a with
    | task i =>
      cases hph : r.tasks[i]? with
      | none => simpa [stepAct, hph] using h
      | some ph =>
        cases hp : fileps[i]? with
        | none => simpa [stepAct, hph, hp] using h
        | some path =>
          simp only [stepAct, hph, hp]
          exact stepTask_outcomesCounted E i path ph r hph h
    | collect =>
      unfold stepAct
      split_ifs
      · exact h
      · cases hm : r.mes with
        | nil => exact h
        | cons m ms =>
          unfold OutcomesCounted at h ⊢
          rw [hm] at h
          simp only [collectorStep, List.length_cons] at h ⊢
          split_ifs <;> simp only [] <;> omega

end Ringot
